import Mathlib

/-
  Shallow embedding of the path-to-tree pipeline of the folder_creator
  repository (src/path-processor.ts and src/tree-builder.ts), together with
  theorems settling the frozen claims about it.

  JavaScript strings are modelled as Lean `String` (operated on through their
  `List Char` data where convenient); JS string helpers (`trim`, `split`,
  `endsWith`, regexes) are translated explicitly below.  The JS
  `String.prototype.localeCompare` comparator is environment-dependent, so it
  is a parameter `lc : String → String → Int` of the tree-builder definitions;
  a comparator returns a negative, zero or positive number exactly as in JS.
-/

namespace FolderCreator

/-- `PathIssue.type` values, from types.ts. -/
inductive IssueType where
  | duplicate
  | conflict
  | invalid
  | reserved
  | depth
  | sanitized
deriving DecidableEq, Repr

/-- PathIssue from types.ts: a diagnostic with type, path or segment, message
and optional 1-based source line. -/
structure PathIssue where
  type : IssueType
  path : String
  message : String
  line : Option Nat
deriving DecidableEq, Repr

/-- PathEntry from types.ts. -/
structure PathEntry where
  path : String
  isDirectory : Bool
  originalLine : Nat
  issues : List PathIssue
deriving DecidableEq, Repr, Inhabited

/-- ProcessedPaths from types.ts. -/
structure ProcessedPaths where
  entries : List PathEntry
  issues : List PathIssue
  folderCount : Nat
  fileCount : Nat
deriving DecidableEq, Repr

/-- MAX_DEPTH constant of path-processor.ts. -/
def MAX_DEPTH : Nat := 30

/-- MAX_LINES constant of path-processor.ts. -/
def MAX_LINES : Nat := 5000

/-- Membership in the character class of the INVALID_CHARS regex
of path-processor.ts: one of < > : " | ? * or a control character
(code points 0x00 to 0x1F). -/
def isInvalidChar (c : Char) : Bool :=
  c = '<' || c = '>' || c = ':' || c = '"' || c = '|' || c = '?' || c = '*' ||
    c.toNat ≤ 0x1F

/-- One step of `String.prototype.replace` with the non-global INVALID_CHARS
regex: only the first matching character is replaced by a hyphen. -/
def replaceFirstInvalid : List Char → List Char
  | [] => []
  | c :: cs => if isInvalidChar c then '-' :: cs else c :: replaceFirstInvalid cs

/-- sanitizeFileName from path-processor.ts:
name.replace(INVALID_CHARS, hyphen).  The INVALID_CHARS regex carries no
global flag, so only the first offending character is replaced. -/
def sanitizeFileName (name : String) : String :=
  ⟨replaceFirstInvalid name.data⟩

/-- The base names of the RESERVED_NAMES regex of path-processor.ts. -/
def reservedBases : List String :=
  ["CON", "PRN", "AUX", "NUL",
   "COM1", "COM2", "COM3", "COM4", "COM5", "COM6", "COM7", "COM8", "COM9",
   "LPT1", "LPT2", "LPT3", "LPT4", "LPT5", "LPT6", "LPT7", "LPT8", "LPT9"]

/-- ASCII upper-casing of a string, modelling the case-insensitive flag of the
RESERVED_NAMES regex (the pattern is pure ASCII). -/
def upperAscii (s : String) : String :=
  ⟨s.data.map Char.toUpper⟩

/-- Test of the RESERVED_NAMES regex of path-processor.ts: the name matches
when, case-insensitively, it equals a reserved base name or continues it with
a dot (the regex is anchored at the start only, and after the base requires a
dot or the end of the string). -/
def isReservedName (name : String) : Bool :=
  reservedBases.any fun b =>
    upperAscii name = b || (b ++ ".").data.isPrefixOf (upperAscii name).data

/-- JS String.prototype.trim (the whitespace class is approximated by Lean's
Char.isWhitespace; all inputs in this development use ASCII whitespace). -/
def jsTrim (s : String) : String :=
  ⟨((s.data.dropWhile Char.isWhitespace).reverse.dropWhile
      Char.isWhitespace).reverse⟩

/-- Result record of validateFileName from path-processor.ts. -/
structure ValidationResult where
  valid : Bool
  sanitized : Option String
  issue : Option String
deriving DecidableEq, Repr

/-- validateFileName from path-processor.ts. -/
def validateFileName (name : String) : ValidationResult :=
  if name = "" || jsTrim name = "" then ⟨false, none, some "Empty name"⟩
  else if name.data.any isInvalidChar then
    ⟨false, some (sanitizeFileName name), some "Contains invalid characters"⟩
  else if isReservedName name then ⟨false, none, some "Reserved name"⟩
  else if name.length > 255 then ⟨false, none, some "Name too long"⟩
  else ⟨true, none, none⟩

/-- Collapse every run of slashes to a single slash: the
replace(slash-run-regex, single slash) step of normalizePath. -/
def collapseSlashes : List Char → List Char
  | [] => []
  | a :: rest =>
      match rest with
      | [] => [a]
      | b :: cs =>
          if a = '/' && b = '/' then collapseSlashes (b :: cs)
          else a :: collapseSlashes (b :: cs)

/-- Remove leading and trailing slash runs: the second replace step of
normalizePath. -/
def stripSlashes (cs : List Char) : List Char :=
  ((cs.dropWhile (· = '/')).reverse.dropWhile (· = '/')).reverse

/-- JS String.prototype.split on a single separator character: splitting the
empty string yields one empty field, and separators at the ends produce empty
fields. -/
def splitChar (sep : Char) : List Char → List (List Char)
  | [] => [[]]
  | c :: cs =>
      let r := splitChar sep cs
      if c = sep then [] :: r
      else
        match r with
        | [] => [[c]]
        | p :: ps => (c :: p) :: ps

/-- The split of a string on the slash character, as a list of strings. -/
def splitSlash (s : String) : List String :=
  (splitChar '/' s.data).map fun l => String.mk l

/-- The segment list normalizePath works on: backslashes converted to forward
slashes, slash runs collapsed, leading/trailing slashes stripped, the string
split on slashes and single-dot segments dropped. -/
def pathParts (path : String) : List String :=
  ((splitChar '/'
      (stripSlashes
        (collapseSlashes (path.data.map fun c => if c = '\\' then '/' else c)))).map
    (fun l => String.mk l)).filter fun p => p ≠ "."

/-- The message of the error thrown by normalizePath on a parent-directory
segment. -/
def parentRefMessage : String := "Parent directory references (..) are not allowed"

/-- Whether the segment list of a path contains a parent-directory segment,
which makes normalizePath throw. -/
def hasParentRef (path : String) : Bool :=
  (pathParts path).any fun p => p == ".."

/-- normalizePath from path-processor.ts.  The thrown error is modelled as the
error case of Except, carrying the thrown message. -/
def normalizePath (path : String) : Except String String :=
  if hasParentRef path then Except.error parentRefMessage
  else Except.ok (String.intercalate "/" (pathParts path))

/-- validateInput from path-processor.ts: the zod schema accepts the input
when its length is at most MAX_LINES * 200, and reports the schema's message
otherwise.  (JS measures UTF-16 units; Lean code points.  All claims use
ASCII inputs, where the two agree.) -/
def validateInput (input : String) : Bool × Option String :=
  if input.length ≤ MAX_LINES * 200 then (true, none)
  else (false,
    some ("Input too large. Maximum " ++ toString MAX_LINES ++ " lines recommended."))

/-- Association-list lookup modelling JS Map.prototype.get. -/
def lookupAssoc {α : Type} : List (String × α) → String → Option α
  | [], _ => none
  | (k', v) :: rest, k => if k' = k then some v else lookupAssoc rest k

/-- Association-list update modelling JS Map.prototype.set. -/
def setAssoc {α : Type} : List (String × α) → String → α → List (String × α)
  | [], k, v => [(k, v)]
  | (k', v') :: rest, k, v =>
      if k' = k then (k, v) :: rest else (k', v') :: setAssoc rest k v

/-- The mutable state of the processPaths line loop.  Entries live in an
index-addressable arena (the output list); pathToEntry maps a canonical path
to the index of its representative entry, modelling the JS map from path to
the shared entry reference. -/
structure PState where
  issues : List PathIssue
  entries : List PathEntry
  seenPaths : List (String × List Nat)
  pathToEntry : List (String × Nat)
deriving DecidableEq, Repr

/-- The depth-issue message of processPaths. -/
def depthMessage : String := "Path depth exceeds " ++ toString MAX_DEPTH ++ " levels"

/-- The issues the segment-validation loop of processPaths pushes for one
segment. -/
def segmentIssues (originalLine : Nat) (segment : String) : List PathIssue :=
  let v := validateFileName segment
  if v.valid then []
  else
    match v.sanitized with
    | some s =>
        [⟨IssueType.sanitized, segment,
          "Sanitized: \"" ++ segment ++ "\" → \"" ++ s ++ "\"", some originalLine⟩]
    | none =>
        [⟨(if v.issue = some "Reserved name" then IssueType.reserved
           else IssueType.invalid),
          segment, v.issue.getD "Invalid name", some originalLine⟩]

/-- The duplicate-issue message: the prior lines are the recorded ones without
the just-pushed current line (the slice(0, -1) of the source). -/
def dupMessage (priorLines : List Nat) : String :=
  "Duplicate path (also on lines: " ++
    String.intercalate ", " (priorLines.map toString) ++ ")"

/-- The word the conflict message uses for an entry kind. -/
def kindWord (isDir : Bool) : String := if isDir then "directory" else "file"

/-- The conflict-issue message of processPaths. -/
def conflictMessage (oldIsDir newIsDir : Bool) : String :=
  "Conflict: defined as both " ++ kindWord oldIsDir ++ " and " ++ kindWord newIsDir

/-- Whether a string ends with the given character (JS endsWith on a
one-character suffix). -/
def endsWithChar (c : Char) (s : String) : Bool :=
  match s.data.reverse with
  | [] => false
  | x :: _ => x = c

/-- The body of the lines.forEach callback of processPaths: processing of one
input line against the running state.  index is the 0-based line index.
The in-place mutation of the existing representative entry on a
file-then-directory conflict is a set into the entry arena; as in the source,
the append condition afterwards re-reads the (possibly just upgraded)
representative. -/
def processLine (st : PState) (index : Nat) (line : String) : PState :=
  let trimmed := jsTrim line
  if trimmed = "" then st
  else
    let originalLine := index + 1
    let isDirectory := endsWithChar '/' trimmed
    let path0 := if isDirectory then String.mk trimmed.data.dropLast else trimmed
    match normalizePath path0 with
    | Except.error msg =>
        { st with issues := st.issues ++ [⟨IssueType.invalid, trimmed, msg, some originalLine⟩] }
    | Except.ok path =>
      if path = "" then st
      else
        let depth := (splitSlash path).length
        let issues1 := st.issues ++
          (if depth > MAX_DEPTH then
            [⟨IssueType.depth, path, depthMessage, some originalLine⟩]
           else [])
        let segments := splitSlash path
        let entryIssues0 :=
          segments.foldl (fun acc seg => acc ++ segmentIssues originalLine seg) []
        let (entryIssues1, seen1) :=
          match lookupAssoc st.seenPaths path with
          | some existingLines =>
              (entryIssues0 ++
                 [PathIssue.mk IssueType.duplicate path (dupMessage existingLines)
                   (some originalLine)],
               setAssoc st.seenPaths path (existingLines ++ [originalLine]))
          | none => (entryIssues0, setAssoc st.seenPaths path [originalLine])
        let (entryIssues2, entries1) :=
          match lookupAssoc st.pathToEntry path with
          | some i =>
              let ex := st.entries.getD i default
              if ex.isDirectory != isDirectory then
                let e1 := entryIssues1 ++
                  [PathIssue.mk IssueType.conflict path
                    (conflictMessage ex.isDirectory isDirectory) (some originalLine)]
                if isDirectory && !ex.isDirectory then
                  (e1, st.entries.set i
                    { ex with
                        isDirectory := true,
                        issues := ex.issues ++
                          [PathIssue.mk IssueType.conflict path
                            "Resolved: treating as directory" (some ex.originalLine)] })
                else (e1, st.entries)
              else (entryIssues1, st.entries)
          | none => (entryIssues1, st.entries)
        let entry : PathEntry := ⟨path, isDirectory, originalLine, entryIssues2⟩
        let (entries2, pathToEntry1) :=
          match lookupAssoc st.pathToEntry path with
          | none => (entries1 ++ [entry], setAssoc st.pathToEntry path entries1.length)
          | some i =>
              if isDirectory && !(entries1.getD i default).isDirectory then
                (entries1 ++ [entry], setAssoc st.pathToEntry path entries1.length)
              else (entries1, st.pathToEntry)
        { issues := issues1 ++ entryIssues2,
          entries := entries2,
          seenPaths := seen1,
          pathToEntry := pathToEntry1 }

/-- The oversized-input issue processPaths records before the line loop. -/
def bigInputIssue : PathIssue :=
  ⟨IssueType.depth, "",
   "Input exceeds " ++ toString MAX_LINES ++
     " lines. Processing anyway, but performance may be affected.", none⟩

/-- The split of the raw input into lines (JS input.split on a newline). -/
def jsSplitNL (s : String) : List String :=
  (splitChar '\n' s.data).map fun l => String.mk l

/-- The whole line loop of processPaths, from the initial state (with the
oversized-input issue when there are more than MAX_LINES lines). -/
def processLines (lines : List String) : PState :=
  let init : PState :=
    ⟨if lines.length > MAX_LINES then [bigInputIssue] else [], [], [], []⟩
  lines.enum.foldl (fun st p => processLine st p.1 p.2) init

/-- processPaths from path-processor.ts.  The validateInput result is only
logged in the source (console.warn), so it does not influence the returned
value. -/
def processPaths (input : String) : ProcessedPaths :=
  let _validation := validateInput input
  let st := processLines (jsSplitNL input)
  ⟨st.entries, st.issues,
   (st.entries.filter fun e => e.isDirectory).length,
   (st.entries.filter fun e => !e.isDirectory).length⟩

/-- processPaths with the validateInput call dropped: used to state that the
input-size validation never influences the result. -/
def processPathsUnchecked (input : String) : ProcessedPaths :=
  let st := processLines (jsSplitNL input)
  ⟨st.entries, st.issues,
   (st.entries.filter fun e => e.isDirectory).length,
   (st.entries.filter fun e => !e.isDirectory).length⟩

/-- TreeNode from types.ts, as a nested inductive (name, path, isDirectory,
children, issues). -/
inductive TreeNode where
  | mk (name : String) (path : String) (isDirectory : Bool)
       (children : List TreeNode) (issues : List PathIssue)

instance : Inhabited TreeNode := ⟨TreeNode.mk "" "" true [] []⟩

/-- The name field of a TreeNode. -/
def TreeNode.name : TreeNode → String
  | .mk n _ _ _ _ => n

/-- The path field of a TreeNode. -/
def TreeNode.path : TreeNode → String
  | .mk _ p _ _ _ => p

/-- The isDirectory field of a TreeNode. -/
def TreeNode.isDirectory : TreeNode → Bool
  | .mk _ _ d _ _ => d

/-- The children field of a TreeNode. -/
def TreeNode.children : TreeNode → List TreeNode
  | .mk _ _ _ c _ => c

/-- The issues field of a TreeNode. -/
def TreeNode.issues : TreeNode → List PathIssue
  | .mk _ _ _ _ i => i

/-- The entry comparator of the build-order sort of buildTree: directories
first, then localeCompare on the canonical path. -/
def entryCompare (lc : String → String → Int) (a b : PathEntry) : Int :=
  if a.isDirectory != b.isDirectory then (if a.isDirectory then -1 else 1)
  else lc a.path b.path

/-- The at-most ordering induced by entryCompare, as used by the (stable) JS
sort. -/
def entryLe (lc : String → String → Int) (a b : PathEntry) : Bool :=
  entryCompare lc a b ≤ 0

/-- The build-order sort of buildTree over a copy of the entries list. -/
def sortEntries (lc : String → String → Int) (entries : List PathEntry) : List PathEntry :=
  entries.mergeSort (entryLe lc)

/-- The child comparator of sortTree: directories first, then localeCompare on
the name. -/
def nodeCompare (lc : String → String → Int) (a b : TreeNode) : Int :=
  if a.isDirectory != b.isDirectory then (if a.isDirectory then -1 else 1)
  else lc a.name b.name

/-- The at-most ordering induced by nodeCompare. -/
def nodeLe (lc : String → String → Int) (a b : TreeNode) : Bool :=
  nodeCompare lc a b ≤ 0

/-- Lookup of a child by name.  The source keeps a nodeMap keyed by full
path; since a node at path p is created exactly once and is always attached as
a child of the node at the parent path of p, looking segmentPath up in the
map is the same as looking the segment name up among the current parent's
children, which is how the embedding models it. -/
def findChild : List TreeNode → String → Option TreeNode
  | [], _ => none
  | c :: rest, nm => if c.name = nm then some c else findChild rest nm

/-- Replacement of the child with the given name by an updated node,
modelling the in-place mutation of the shared child reference. -/
def replaceChild (cs : List TreeNode) (nm : String) (c' : TreeNode) : List TreeNode :=
  cs.map fun c => if c.name = nm then c' else c

/-- The joined path of a child: currentPath/part, or just part at the root
(the segmentPath computation of buildTree). -/
def joinPath (base nm : String) : String :=
  if base = "" then nm else base ++ "/" ++ nm

/-- The inner segment walk of buildTree for one entry: parts is the remaining
segment list, node the current parent (whose path is the walked currentPath).
Missing nodes are created on the fly — directories for non-final segments or
directory entries (with no issues of their own), a file node carrying the
entry's issues for a final file segment; a found node at the final segment of
a file entry has the entry's issues appended. -/
def insertParts (entry : PathEntry) : List String → TreeNode → String → TreeNode
  | [], node, _ => node
  | part :: rest, node, currentPath =>
    let isLast := rest.isEmpty
    let segmentPath := joinPath currentPath part
    match findChild node.children part with
    | none =>
        if !isLast || entry.isDirectory then
          let child := TreeNode.mk part segmentPath true [] []
          let child' := insertParts entry rest child segmentPath
          TreeNode.mk node.name node.path node.isDirectory
            (node.children ++ [child']) node.issues
        else
          let child := TreeNode.mk part segmentPath false [] entry.issues
          TreeNode.mk node.name node.path node.isDirectory
            (node.children ++ [child]) node.issues
    | some child =>
        let child1 :=
          if isLast && !entry.isDirectory then
            TreeNode.mk child.name child.path child.isDirectory child.children
              (child.issues ++ entry.issues)
          else child
        let child2 := insertParts entry rest child1 segmentPath
        TreeNode.mk node.name node.path node.isDirectory
          (replaceChild node.children part child2) node.issues

/-- The nonempty segment list of an entry path:
entry.path.split on slashes, empty parts filtered out. -/
def entryParts (e : PathEntry) : List String :=
  (splitSlash e.path).filter fun p => p ≠ ""

/-- Insertion of one entry into the tree under construction. -/
def insertEntry (t : TreeNode) (e : PathEntry) : TreeNode :=
  insertParts e (entryParts e) t ""

/-- The synthetic root node of buildTree. -/
def rootNode : TreeNode := TreeNode.mk "" "" true [] []

/-- The construction phase of buildTree: all entries inserted in build-sort
order, starting from the bare root. -/
def buildTreeRaw (lc : String → String → Int) (entries : List PathEntry) : TreeNode :=
  (sortEntries lc entries).foldl insertEntry rootNode

/-- sortTree from tree-builder.ts: recursively sort every node's children in
place (directories before files, then by name per the comparator), descending
into the sorted children. -/
def sortTree (lc : String → String → Int) (t : TreeNode) : TreeNode :=
  match t with
  | TreeNode.mk nm p d cs iss =>
      TreeNode.mk nm p d
        (((cs.mergeSort (nodeLe lc)).attach.map fun c => sortTree lc c.val)) iss
termination_by sizeOf t
decreasing_by
  have h1 := List.mem_mergeSort.mp c.property
  have h2 := List.sizeOf_lt_of_mem h1
  simp only [TreeNode.mk.sizeOf_spec]
  omega

/-- buildTree from tree-builder.ts: construction followed by the final
recursive child sort. -/
def buildTree (lc : String → String → Int) (entries : List PathEntry) : TreeNode :=
  sortTree lc (buildTreeRaw lc entries)

/-- Reachability of a node in a tree by descending through children (the node
itself included). -/
inductive Reach : TreeNode → TreeNode → Prop where
  | here (t : TreeNode) : Reach t t
  | there {t c n : TreeNode} : c ∈ t.children → Reach c n → Reach t n

/-- The node found by walking a segment list from a tree's root, looking each
segment up by child name. -/
def findNodeAt : TreeNode → List String → Option TreeNode
  | t, [] => some t
  | t, p :: ps =>
      match findChild t.children p with
      | none => none
      | some c => findNodeAt c ps

/-- The issues of the node at a segment walk, or the empty list when the walk
finds no node. -/
def issuesAt (t : TreeNode) (parts : List String) : List PathIssue :=
  match findNodeAt t parts with
  | none => []
  | some n => n.issues

/-- The structural invariant of the built tree: at every reachable node the
children are unique by name, and every child has a nonempty name and the
path joined from its parent's path and its own name. -/
def GoodTree (t : TreeNode) : Prop :=
  ∀ n, Reach t n →
    (n.children.map TreeNode.name).Nodup ∧
    ∀ c ∈ n.children, c.name ≠ "" ∧ c.path = joinPath n.path c.name

/-- The path a non-blank line declares before normalization (processLine's
path0): the trimmed line, its trailing slash stripped when it marks a
directory. -/
def linePath (line : String) : String :=
  let trimmed := jsTrim line
  if endsWithChar '/' trimmed then String.mk trimmed.data.dropLast else trimmed

/-- The segment-validation issues of one processed line, in segment order: the
issues the segments.forEach loop of processPaths accumulates into entryIssues
for a line at the given 1-based number declaring the given canonical path. -/
def lineSegmentIssues (originalLine : Nat) (path : String) : List PathIssue :=
  (splitSlash path).foldl (fun acc seg => acc ++ segmentIssues originalLine seg) []

/-- The duplicate issue the duplicate-tracking step of processPaths pushes for
a line declaring an already-seen canonical path (none when the path is
fresh); the message lists the previously recorded lines. -/
def lineDupIssues (st : PState) (originalLine : Nat) (path : String) : List PathIssue :=
  match lookupAssoc st.seenPaths path with
  | some existingLines =>
      [⟨IssueType.duplicate, path, dupMessage existingLines, some originalLine⟩]
  | none => []

/-- The conflict issue the conflict-checking step of processPaths pushes for a
line whose declared kind differs from the existing representative entry's
kind (none when the path has no representative or the kinds agree). -/
def lineConflictIssues (st : PState) (originalLine : Nat) (path : String)
    (isDir : Bool) : List PathIssue :=
  match lookupAssoc st.pathToEntry path with
  | some i =>
      if (st.entries.getD i default).isDirectory != isDir then
        [⟨IssueType.conflict, path,
          conflictMessage (st.entries.getD i default).isDirectory isDir,
          some originalLine⟩]
      else []
  | none => []

/-- The six-line input of the spec's example. -/
def sixLineInput : String :=
  "src/components/\nsrc/components/Button.tsx\nsrc/components/Button.tsx\nsrc/utils/helpers.ts\nsrc/utils/invalid<>name.ts\nsrc/README.md"

/-- A single line whose path has 31 segments, one more than MAX_DEPTH. -/
def deepInput : String := String.intercalate "/" (List.replicate 31 "a")

/-- A degenerate localeCompare model that considers all strings equal; used to
instantiate comparator-parametric theorems at concrete inputs. -/
def lcConst : String → String → Int := fun _ _ => 0

/-- Coverage invariant of the line loop: every issue attached to a surviving
entry is in the top-level issues list, except for the retroactively-attached
Resolved conflict issue, which lives only on its entry. -/
def IssuesCovered (st : PState) : Prop :=
  ∀ e ∈ st.entries, ∀ iss ∈ e.issues,
    iss ∈ st.issues ∨ iss.message = "Resolved: treating as directory"

/-! ### Helper lemmas about the sanitizer -/

lemma isInvalidChar_hyphen : isInvalidChar '-' = false := by decide

lemma replaceFirstInvalid_of_countP_zero (l : List Char)
    (h : l.countP isInvalidChar = 0) : replaceFirstInvalid l = l := by
  induction l with
  | nil => rfl
  | cons c cs ih =>
      rw [List.countP_cons] at h
      by_cases hc : isInvalidChar c = true
      · simp [hc] at h
      · simp only [replaceFirstInvalid, if_neg hc]
        simp only [hc, if_false, Nat.add_zero] at h
        simp [ih h]

lemma countP_replaceFirstInvalid (l : List Char)
    (h : l.countP isInvalidChar ≠ 0) :
    (replaceFirstInvalid l).countP isInvalidChar = l.countP isInvalidChar - 1 := by
  induction l with
  | nil => simp at h
  | cons c cs ih =>
      by_cases hc : isInvalidChar c = true
      · simp only [replaceFirstInvalid, if_pos hc]
        simp [List.countP_cons, isInvalidChar_hyphen, hc]
      · rw [List.countP_cons] at h
        simp only [hc, if_false, Nat.add_zero] at h
        simp only [replaceFirstInvalid, if_neg hc]
        rw [List.countP_cons, List.countP_cons]
        simp only [hc, if_false, Nat.add_zero]
        exact ih h

lemma replaceFirstInvalid_eq_self_iff (l : List Char) :
    replaceFirstInvalid l = l ↔ l.countP isInvalidChar = 0 := by
  constructor
  · intro h
    by_contra hne
    have hcount := countP_replaceFirstInvalid l hne
    rw [h] at hcount
    omega
  · exact replaceFirstInvalid_of_countP_zero l

/-- C3, counterexample.  On a segment with two offending characters the
sanitizer replaces only the first one (matching the repository's own unit
test), so a second application changes the string again: sanitization is not
idempotent and does not replace each offending character. -/
theorem c3_counterexample :
    sanitizeFileName "file<>name.ts" = "file->name.ts" ∧
    sanitizeFileName (sanitizeFileName "file<>name.ts") = "file--name.ts" ∧
    sanitizeFileName (sanitizeFileName "file<>name.ts") ≠ sanitizeFileName "file<>name.ts" := by
  refine ⟨by decide, by decide, by decide⟩

/-- C3, amended.  The sanitizer replaces only the first offending character of
a segment with a hyphen (the INVALID_CHARS regex has no global flag); in
consequence sanitization is idempotent exactly on the segments with at most
one offending character. -/
theorem c3_first_replacement_only :
    (∀ (pre : List Char) (c : Char) (suf : List Char),
        (∀ a ∈ pre, isInvalidChar a = false) → isInvalidChar c = true →
        sanitizeFileName ⟨pre ++ c :: suf⟩ = ⟨pre ++ '-' :: suf⟩) ∧
    (∀ x : String,
        sanitizeFileName (sanitizeFileName x) = sanitizeFileName x ↔
          x.data.countP isInvalidChar ≤ 1) := by
  constructor
  · intro pre c suf hpre hc
    have : replaceFirstInvalid (pre ++ c :: suf) = pre ++ '-' :: suf := by
      induction pre with
      | nil => simp [replaceFirstInvalid, hc]
      | cons a as ih =>
          have ha : isInvalidChar a = false := hpre a (by simp)
          simp only [List.cons_append, replaceFirstInvalid, ha, Bool.false_eq_true,
            if_false, List.cons.injEq, true_and]
          exact ih fun b hb => hpre b (by simp [hb])
    simp [sanitizeFileName, this]
  · intro x
    show (⟨replaceFirstInvalid (replaceFirstInvalid x.data)⟩ : String) =
        ⟨replaceFirstInvalid x.data⟩ ↔ _
    rw [String.ext_iff]
    show replaceFirstInvalid (replaceFirstInvalid x.data) = replaceFirstInvalid x.data ↔ _
    rw [replaceFirstInvalid_eq_self_iff]
    by_cases h0 : x.data.countP isInvalidChar = 0
    · rw [replaceFirstInvalid_of_countP_zero _ h0]
      simp [h0]
    · rw [countP_replaceFirstInvalid _ h0]
      omega

/-- C3, witness for the amended theorem: both parts applied at concrete
inputs. -/
theorem c3_first_replacement_only_witness :
    sanitizeFileName ⟨['a', '<', 'b']⟩ = ⟨['a', '-', 'b']⟩ ∧
    (sanitizeFileName (sanitizeFileName "ab") = sanitizeFileName "ab" ↔
      "ab".data.countP isInvalidChar ≤ 1) :=
  ⟨c3_first_replacement_only.1 ['a'] '<' ['b'] (by decide) (by decide),
   c3_first_replacement_only.2 "ab"⟩

/-! ### The six-line example (C2) -/

/-- C2, counterexample: only one line of the six-line example declares a
directory, and processPaths counts folders over surviving entries only, so
folderCount is 1, not 2 as claimed. -/
theorem c2_counterexample : (processPaths sixLineInput).folderCount ≠ 2 := by decide

/-- C2, amended: the six-line example produces at least two issues, among them
a duplicate and a sanitized one, fileCount 4 (the duplicate file is not
double-counted) — but folderCount 1, since only src/components/ declares a
directory and intermediate directories get no entries. -/
theorem c2_six_line_example :
    2 ≤ (processPaths sixLineInput).issues.length ∧
    (∃ i ∈ (processPaths sixLineInput).issues, i.type = IssueType.duplicate) ∧
    (∃ i ∈ (processPaths sixLineInput).issues, i.type = IssueType.sanitized) ∧
    (processPaths sixLineInput).folderCount = 1 ∧
    (processPaths sixLineInput).fileCount = 4 := by
  refine ⟨by decide, by decide, by decide, by decide, by decide⟩

/-! ### Parent-directory rejection (C6) -/

/-- C6.  A non-blank line whose declared path still contains a parent-directory
segment after slash handling is dropped entirely: the state is unchanged
except that exactly one issue is appended — an invalid issue for that line
carrying the thrown message "Parent directory references (..) are not
allowed".  In particular no entry is produced for the line. -/
theorem c6_parent_ref_rejected (st : PState) (index : Nat) (line : String)
    (hne : jsTrim line ≠ "")
    (href : hasParentRef (linePath line) = true) :
    processLine st index line =
      { st with issues := st.issues ++
          [⟨IssueType.invalid, jsTrim line, parentRefMessage, some (index + 1)⟩] } := by
  have hnp : normalizePath (linePath line) = Except.error parentRefMessage := by
    simp [normalizePath, href]
  simp only [linePath] at hnp
  simp only [processLine, if_neg hne]
  rw [hnp]

/-- C6, witness: the theorem applied to the line "../x" from the empty
state. -/
theorem c6_parent_ref_rejected_witness :
    processLine ⟨[], [], [], []⟩ 0 "../x" =
      { (⟨[], [], [], []⟩ : PState) with issues := [] ++
          [⟨IssueType.invalid, jsTrim "../x", parentRefMessage, some (0 + 1)⟩] } :=
  c6_parent_ref_rejected ⟨[], [], [], []⟩ 0 "../x" (by decide) (by decide)

/-! ### Totality of processPaths (C10) -/

lemma length_filter_add_length_filter_not {α : Type} (p : α → Bool) (l : List α) :
    (l.filter p).length + (l.filter fun a => !p a).length = l.length := by
  induction l with
  | nil => rfl
  | cons a as ih => by_cases h : p a <;> simp [List.filter_cons, h] <;> omega

/-- C10.  processPaths is total: it returns a ProcessedPaths value for every
input string.  The input-size validation can only warn, never alter the
result (processPaths agrees everywhere with the variant that skips the
validation), and the returned counts partition the surviving entries, so the
whole entries list is accounted for.  The one internally-thrown error — the
parent-directory rejection of normalizePath — is caught per line and turned
into an invalid issue (theorem c6 territory); nothing escapes. -/
theorem c10_total (input : String) :
    processPaths input = processPathsUnchecked input ∧
    (processPaths input).folderCount + (processPaths input).fileCount =
      (processPaths input).entries.length := by
  refine ⟨rfl, ?_⟩
  simp only [processPaths]
  exact length_filter_add_length_filter_not _ _

/-! ### Composition of an entry's issues (C5) -/

lemma segmentIssues_type {iss : PathIssue} (ln : Nat) (s : String)
    (h : iss ∈ segmentIssues ln s) :
    iss.type = IssueType.sanitized ∨ iss.type = IssueType.reserved ∨
      iss.type = IssueType.invalid := by
  simp only [segmentIssues] at h
  rcases hv : (validateFileName s).valid with _ | _
  · rw [hv] at h
    simp only [Bool.false_eq_true, if_false] at h
    rcases hs : (validateFileName s).sanitized with _ | s'
    · rw [hs] at h
      simp only [List.mem_singleton] at h
      subst h
      by_cases hr : (validateFileName s).issue = some "Reserved name" <;> simp [hr]
    · rw [hs] at h
      simp only [List.mem_singleton] at h
      subst h
      simp
  · rw [hv] at h
    simp at h

lemma mem_foldl_append {α β : Type} (f : β → List α) (l : List β) (acc : List α)
    (x : α) :
    x ∈ l.foldl (fun a s => a ++ f s) acc ↔ x ∈ acc ∨ ∃ s ∈ l, x ∈ f s := by
  induction l generalizing acc with
  | nil => simp
  | cons b bs ih =>
      rw [List.foldl_cons, ih]
      simp only [List.mem_append, List.mem_cons]
      constructor
      · rintro ((h | h) | ⟨s, hs, hx⟩)
        · exact Or.inl h
        · exact Or.inr ⟨b, Or.inl rfl, h⟩
        · exact Or.inr ⟨s, Or.inr hs, hx⟩
      · rintro (h | ⟨s, (rfl | hs), hx⟩)
        · exact Or.inl (Or.inl h)
        · exact Or.inl (Or.inr hx)
        · exact Or.inr ⟨s, hs, hx⟩

/-- C5, counterexample.  A line whose path has 31 segments (exceeding
MAX_DEPTH = 30) produces exactly one depth issue, but the surviving entry's
own issues list is empty: the depth issue is recorded only in the top-level
issues list, contradicting the claim that the entry carries it. -/
theorem c5_counterexample :
    ((processPaths deepInput).entries.map PathEntry.issues) = [[]] ∧
    ((processPaths deepInput).issues.countP fun i => i.type == IssueType.depth) = 1 := by
  exact ⟨by decide, by decide⟩

lemma append_singleton_cancel {α : Type} {l : List α} {a b : α}
    (h : l ++ [a] = l ++ [b]) : a = b := by
  have h2 := List.append_cancel_left h
  simpa using h2

/-- Every issue a line attaches to its entry is a segment-validation issue
(sanitized, reserved or invalid), its duplicate issue, or its conflict
issue — in particular never a depth issue. -/
lemma lineIssues_types (st : PState) (ol : Nat) (path : String) (isDir : Bool) :
    ∀ iss ∈ (lineSegmentIssues ol path ++ lineDupIssues st ol path) ++
        lineConflictIssues st ol path isDir,
      iss.type = IssueType.sanitized ∨ iss.type = IssueType.reserved ∨
        iss.type = IssueType.invalid ∨ iss.type = IssueType.duplicate ∨
        iss.type = IssueType.conflict := by
  intro iss hmem
  rcases List.mem_append.mp hmem with h1 | hconfl
  · rcases List.mem_append.mp h1 with hseg | hdup
    · simp only [lineSegmentIssues] at hseg
      rw [mem_foldl_append] at hseg
      rcases hseg with h | ⟨s, _, hx⟩
      · simp at h
      · rcases segmentIssues_type _ _ hx with h | h | h
        · exact Or.inl h
        · exact Or.inr (Or.inl h)
        · exact Or.inr (Or.inr (Or.inl h))
    · simp only [lineDupIssues] at hdup
      rcases hls : lookupAssoc st.seenPaths path with _ | ls <;>
        simp only [hls] at hdup
      · simp at hdup
      · rw [List.mem_singleton] at hdup
        subst hdup
        exact Or.inr (Or.inr (Or.inr (Or.inl rfl)))
  · simp only [lineConflictIssues] at hconfl
    rcases hpe : lookupAssoc st.pathToEntry path with _ | i <;>
      simp only [hpe] at hconfl
    · simp at hconfl
    · by_cases hd : ((st.entries.getD i default).isDirectory != isDir) = true
      · rw [if_pos hd] at hconfl
        rw [List.mem_singleton] at hconfl
        subst hconfl
        exact Or.inr (Or.inr (Or.inr (Or.inr rfl)))
      · rw [if_neg hd] at hconfl
        simp at hconfl

/-- C5, amended.  For every processed line (non-blank, normalizing to a
non-empty canonical path), the issues the line contributes are exactly the
sanitized, reserved and invalid issues found while validating its segments,
then its own duplicate issue (when the path was already seen), then its own
conflict issue (when the declared kind differs from the representative
entry's), in that discovery order; whenever the line appends an entry, the
entry carries exactly that composition as its issues; and none of those
issues is a depth issue — the depth issue of an over-deep path goes only to
the top-level issues list, between the issues of earlier lines and this
line's own. -/
theorem c5_entry_issue_composition (st : PState) (index : Nat) (line path : String)
    (hne : jsTrim line ≠ "")
    (hnorm : normalizePath (linePath line) = Except.ok path)
    (hpath : path ≠ "") :
    (processLine st index line).issues =
      (st.issues ++
        (if (splitSlash path).length > MAX_DEPTH then
          [⟨IssueType.depth, path, depthMessage, some (index + 1)⟩]
         else [])) ++
      ((lineSegmentIssues (index + 1) path ++ lineDupIssues st (index + 1) path) ++
        lineConflictIssues st (index + 1) path (endsWithChar '/' (jsTrim line))) ∧
    (∀ e : PathEntry, (processLine st index line).entries = st.entries ++ [e] →
      e = ⟨path, endsWithChar '/' (jsTrim line), index + 1,
        (lineSegmentIssues (index + 1) path ++ lineDupIssues st (index + 1) path) ++
          lineConflictIssues st (index + 1) path (endsWithChar '/' (jsTrim line))⟩) ∧
    (∀ iss ∈ (lineSegmentIssues (index + 1) path ++ lineDupIssues st (index + 1) path) ++
        lineConflictIssues st (index + 1) path (endsWithChar '/' (jsTrim line)),
      iss.type = IssueType.sanitized ∨ iss.type = IssueType.reserved ∨
        iss.type = IssueType.invalid ∨ iss.type = IssueType.duplicate ∨
        iss.type = IssueType.conflict) ∧
    (∀ iss ∈ (lineSegmentIssues (index + 1) path ++ lineDupIssues st (index + 1) path) ++
        lineConflictIssues st (index + 1) path (endsWithChar '/' (jsTrim line)),
      iss.type ≠ IssueType.depth) := by
  have hkey : (processLine st index line).issues =
      (st.issues ++
        (if (splitSlash path).length > MAX_DEPTH then
          [⟨IssueType.depth, path, depthMessage, some (index + 1)⟩]
         else [])) ++
      ((lineSegmentIssues (index + 1) path ++ lineDupIssues st (index + 1) path) ++
        lineConflictIssues st (index + 1) path (endsWithChar '/' (jsTrim line))) ∧
      (∀ e : PathEntry, (processLine st index line).entries = st.entries ++ [e] →
        e = ⟨path, endsWithChar '/' (jsTrim line), index + 1,
          (lineSegmentIssues (index + 1) path ++ lineDupIssues st (index + 1) path) ++
            lineConflictIssues st (index + 1) path (endsWithChar '/' (jsTrim line))⟩) := by
    simp only [linePath] at hnorm
    simp only [processLine, lineSegmentIssues, lineDupIssues, lineConflictIssues,
      if_neg hne]
    rw [hnorm]
    simp only [if_neg hpath]
    rcases hseen : lookupAssoc st.seenPaths path with _ | ls <;>
      simp only [hseen] <;>
      ( rcases hpe : lookupAssoc st.pathToEntry path with _ | i <;> simp only [hpe]
        · refine ⟨by simp, ?_⟩
          intro e he
          have h2 := append_singleton_cancel he
          rw [← h2]
          simp
        · by_cases h3 :
              ((st.entries.getD i default).isDirectory !=
                endsWithChar '/' (jsTrim line)) = true
          · simp only [h3, if_true]
            by_cases h4 : (endsWithChar '/' (jsTrim line) &&
                !(st.entries.getD i default).isDirectory) = true
            · simp only [h4, if_true]
              by_cases hi : i < st.entries.length
              · constructor
                · first
                  | exact True.intro
                  | (split <;> simp)
                · intro e he
                  split at he
                  · rename_i hcontra
                    exfalso
                    simp [List.getD_eq_getElem?_getD, List.getElem?_set_self', hi]
                      at hcontra
                  · exfalso
                    have hl := congrArg List.length he
                    simp [List.length_set] at hl
              · have hlen : st.entries.length ≤ i := by omega
                rw [List.set_eq_of_length_le hlen, if_pos h4]
                refine ⟨by simp, ?_⟩
                intro e he
                have h2 := append_singleton_cancel he
                simpa using h2.symm
            · simp only [if_neg h4]
              refine ⟨by simp, ?_⟩
              intro e he
              exfalso
              have hl := congrArg List.length he
              simp at hl
          · have heq : (st.entries.getD i default).isDirectory =
                endsWithChar '/' (jsTrim line) := by simpa using h3
            have h4f : ¬((endsWithChar '/' (jsTrim line) &&
                !(st.entries.getD i default).isDirectory) = true) := by
              rw [heq]; simp
            simp only [if_neg h3, if_neg h4f]
            refine ⟨by simp, ?_⟩
            intro e he
            exfalso
            have hl := congrArg List.length he
            simp at hl )
  refine ⟨hkey.1, hkey.2, lineIssues_types st (index + 1) path _, ?_⟩
  intro iss hmem
  rcases lineIssues_types st (index + 1) path _ iss hmem with h | h | h | h | h <;>
    simp [h]

/-- C5, witness for the amended theorem: the line "a/" processed against a
state whose arena holds a file entry for the seen path "a" — a duplicate and
conflicting line, so both the duplicate and the conflict issue appear in the
stated order. -/
theorem c5_entry_issue_composition_witness :
    (processLine ⟨[], [⟨"a", false, 1, []⟩], [("a", [1])], [("a", 0)]⟩ 1 "a/").issues =
      (([] : List PathIssue) ++
        (if (splitSlash "a").length > MAX_DEPTH then
          [⟨IssueType.depth, "a", depthMessage, some (1 + 1)⟩]
         else [])) ++
      ((lineSegmentIssues (1 + 1) "a" ++
          lineDupIssues ⟨[], [⟨"a", false, 1, []⟩], [("a", [1])], [("a", 0)]⟩ (1 + 1) "a") ++
        lineConflictIssues ⟨[], [⟨"a", false, 1, []⟩], [("a", [1])], [("a", 0)]⟩ (1 + 1) "a"
          (endsWithChar '/' (jsTrim "a/"))) ∧
    (∀ e : PathEntry,
      (processLine ⟨[], [⟨"a", false, 1, []⟩], [("a", [1])], [("a", 0)]⟩ 1 "a/").entries =
        [⟨"a", false, 1, []⟩] ++ [e] →
      e = ⟨"a", endsWithChar '/' (jsTrim "a/"), 1 + 1,
        (lineSegmentIssues (1 + 1) "a" ++
            lineDupIssues ⟨[], [⟨"a", false, 1, []⟩], [("a", [1])], [("a", 0)]⟩ (1 + 1) "a") ++
          lineConflictIssues ⟨[], [⟨"a", false, 1, []⟩], [("a", [1])], [("a", 0)]⟩ (1 + 1) "a"
            (endsWithChar '/' (jsTrim "a/"))⟩) ∧
    (∀ iss ∈ (lineSegmentIssues (1 + 1) "a" ++
          lineDupIssues ⟨[], [⟨"a", false, 1, []⟩], [("a", [1])], [("a", 0)]⟩ (1 + 1) "a") ++
        lineConflictIssues ⟨[], [⟨"a", false, 1, []⟩], [("a", [1])], [("a", 0)]⟩ (1 + 1) "a"
          (endsWithChar '/' (jsTrim "a/")),
      iss.type = IssueType.sanitized ∨ iss.type = IssueType.reserved ∨
        iss.type = IssueType.invalid ∨ iss.type = IssueType.duplicate ∨
        iss.type = IssueType.conflict) ∧
    (∀ iss ∈ (lineSegmentIssues (1 + 1) "a" ++
          lineDupIssues ⟨[], [⟨"a", false, 1, []⟩], [("a", [1])], [("a", 0)]⟩ (1 + 1) "a") ++
        lineConflictIssues ⟨[], [⟨"a", false, 1, []⟩], [("a", [1])], [("a", 0)]⟩ (1 + 1) "a"
          (endsWithChar '/' (jsTrim "a/")),
      iss.type ≠ IssueType.depth) :=
  c5_entry_issue_composition ⟨[], [⟨"a", false, 1, []⟩], [("a", [1])], [("a", 0)]⟩ 1 "a/" "a"
    (by decide) (by rfl) (by decide)

/-! ### Directory-wins conflict resolution (C1) -/

/-- C1.  When a line declares as a directory a canonical path whose
representative entry (the unique surviving entry for that path, at arena
index i) is a file, the conflict is resolved with directory winning: the
existing entry is mutated in place — its isDirectory set to true and a
conflict issue "Resolved: treating as directory" attributed to its own
original line appended to its issues — and the later directory-declaring line
appends no second entry, so the entries list still contains exactly one entry
for that path, now with isDirectory true. -/
theorem c1_directory_wins (st : PState) (index : Nat) (line path : String)
    (i : Nat) (ex : PathEntry)
    (hne : jsTrim line ≠ "")
    (hdir : endsWithChar '/' (jsTrim line) = true)
    (hnorm : normalizePath (linePath line) = Except.ok path)
    (hpath : path ≠ "")
    (hfound : lookupAssoc st.pathToEntry path = some i)
    (hi : i < st.entries.length)
    (hex : st.entries.getD i default = ex)
    (hfile : ex.isDirectory = false)
    (huniq : ∀ j, j < st.entries.length →
        ((st.entries.getD j default).path = path ↔ j = i)) :
    (processLine st index line).entries =
      st.entries.set i
        { ex with isDirectory := true,
                  issues := ex.issues ++
                    [⟨IssueType.conflict, path, "Resolved: treating as directory",
                      some ex.originalLine⟩] } ∧
    (processLine st index line).entries.length = st.entries.length ∧
    (∀ j, j < (processLine st index line).entries.length →
        (((processLine st index line).entries.getD j default).path = path ↔ j = i)) ∧
    ((processLine st index line).entries.getD i default).isDirectory = true ∧
    ((processLine st index line).entries.getD i default).issues =
      ex.issues ++
        [⟨IssueType.conflict, path, "Resolved: treating as directory",
          some ex.originalLine⟩] := by
  have hmain : (processLine st index line).entries =
      st.entries.set i
        { ex with isDirectory := true,
                  issues := ex.issues ++
                    [⟨IssueType.conflict, path, "Resolved: treating as directory",
                      some ex.originalLine⟩] } := by
    simp only [linePath] at hnorm
    simp only [processLine, if_neg hne]
    rw [hnorm]
    simp only [if_neg hpath, hfound, hex, hfile, hdir]
    have hget : (st.entries.set i
        { ex with isDirectory := true,
                  issues := ex.issues ++
                    [⟨IssueType.conflict, path, "Resolved: treating as directory",
                      some ex.originalLine⟩] })[i]? =
        some ({ ex with isDirectory := true,
                        issues := ex.issues ++
                          [⟨IssueType.conflict, path, "Resolved: treating as directory",
                            some ex.originalLine⟩] }) := by
      simp [List.getElem?_set_self', hi]
    cases hseen : lookupAssoc st.seenPaths path <;>
      simp [hseen, hget]
  have hgeti : (processLine st index line).entries.getD i default =
      { ex with isDirectory := true,
                issues := ex.issues ++
                  [⟨IssueType.conflict, path, "Resolved: treating as directory",
                    some ex.originalLine⟩] } := by
    rw [hmain]
    simp [List.getD_eq_getElem?_getD, List.getElem?_set_self', hi]
  refine ⟨hmain, ?_, ?_, ?_, ?_⟩
  · rw [hmain, List.length_set]
  · intro j hj
    rw [hmain, List.length_set] at hj
    rw [hmain]
    by_cases hji : j = i
    · rw [hji]
      have hexpath : ex.path = path := by
        have h2 := (huniq i hi).mpr rfl
        rw [hex] at h2
        exact h2
      simp [List.getD_eq_getElem?_getD, List.getElem?_set_self', hi, hexpath]
    · have hgj : ∀ a : PathEntry,
          ((st.entries.set i a).getD j default) = st.entries.getD j default := fun a =>
        by simp [List.getD_eq_getElem?_getD,
          List.getElem?_set_ne (fun hh => hji hh.symm)]
      rw [hgj]
      simp only [hji, iff_false]
      intro hcontra
      exact hji ((huniq j hj).mp hcontra)
  · rw [hgeti]
  · rw [hgeti]

/-- C1, witness: a one-entry state holding the file entry for path a, then
the line "a/". -/
theorem c1_directory_wins_witness :
    (processLine ⟨[], [⟨"a", false, 1, []⟩], [("a", [1])], [("a", 0)]⟩ 1 "a/").entries =
      [⟨"a", false, 1, []⟩].set 0
        { (⟨"a", false, 1, []⟩ : PathEntry) with isDirectory := true, issues := ([] : List PathIssue) ++ [⟨IssueType.conflict, "a", "Resolved: treating as directory", some 1⟩] } ∧
    (processLine ⟨[], [⟨"a", false, 1, []⟩], [("a", [1])], [("a", 0)]⟩ 1 "a/").entries.length =
      [(⟨"a", false, 1, []⟩ : PathEntry)].length ∧
    (∀ j, j < (processLine ⟨[], [⟨"a", false, 1, []⟩], [("a", [1])], [("a", 0)]⟩ 1 "a/").entries.length →
        (((processLine ⟨[], [⟨"a", false, 1, []⟩], [("a", [1])], [("a", 0)]⟩ 1 "a/").entries.getD j default).path = "a" ↔ j = 0)) ∧
    ((processLine ⟨[], [⟨"a", false, 1, []⟩], [("a", [1])], [("a", 0)]⟩ 1 "a/").entries.getD 0 default).isDirectory = true ∧
    ((processLine ⟨[], [⟨"a", false, 1, []⟩], [("a", [1])], [("a", 0)]⟩ 1 "a/").entries.getD 0 default).issues =
      ([] : List PathIssue) ++
        [⟨IssueType.conflict, "a", "Resolved: treating as directory", some 1⟩] :=
  c1_directory_wins ⟨[], [⟨"a", false, 1, []⟩], [("a", [1])], [("a", 0)]⟩ 1 "a/" "a" 0
    ⟨"a", false, 1, []⟩ (by decide) (by decide) (by rfl) (by decide) (by rfl)
    (by decide) (by rfl) (by rfl)
    (by intro j hj
        simp only [List.length_cons, List.length_nil] at hj
        interval_cases j
        simp)

/-! ### The top-level issues list as a superset of entry issues (C4) -/

/-- Shape of one processLine step: the top-level issues list only grows by a
suffix, and the entries list is unchanged, upgraded in place at one slot
(gaining a Resolved conflict issue), or extended by one entry whose issues
all lie in the new suffix. -/
lemma processLine_shape (st : PState) (idx : Nat) (line : String) :
    ∃ tl : List PathIssue,
      (processLine st idx line).issues = st.issues ++ tl ∧
      ((processLine st idx line).entries = st.entries ∨
        (∃ i ex p, i < st.entries.length ∧ st.entries.getD i default = ex ∧
          (processLine st idx line).entries =
            st.entries.set i
              { ex with isDirectory := true,
                        issues := ex.issues ++
                          [⟨IssueType.conflict, p, "Resolved: treating as directory",
                            some ex.originalLine⟩] }) ∨
        (∃ p d ln eIss,
          (processLine st idx line).entries = st.entries ++ [⟨p, d, ln, eIss⟩] ∧
          ∀ iss ∈ eIss, iss ∈ tl)) := by
  unfold processLine
  by_cases h1 : jsTrim line = ""
  · exact ⟨[], by simp [h1], Or.inl (by simp [h1])⟩
  · simp only [if_neg h1]
    rcases hn : normalizePath (if endsWithChar '/' (jsTrim line) = true then
        String.mk (jsTrim line).data.dropLast else jsTrim line) with msg | path
    · exact ⟨[⟨IssueType.invalid, jsTrim line, msg, some (idx + 1)⟩], rfl, Or.inl rfl⟩
    · by_cases h2 : path = ""
      · exact ⟨[], by simp [h2], Or.inl (by simp [h2])⟩
      · simp only [if_neg h2]
        rcases hseen : lookupAssoc st.seenPaths path with _ | ls <;>
          simp only [hseen] <;>
          ( rcases hpe : lookupAssoc st.pathToEntry path with _ | i <;> simp only [hpe]
            · exact ⟨_, List.append_assoc _ _ _,
                Or.inr (Or.inr ⟨path, _, idx + 1, _, rfl,
                  fun iss h => List.mem_append.mpr (Or.inr h)⟩)⟩
            · by_cases h3 :
                  ((st.entries.getD i default).isDirectory !=
                    endsWithChar '/' (jsTrim line)) = true
              · simp only [h3, if_true]
                by_cases h4 : (endsWithChar '/' (jsTrim line) &&
                    !(st.entries.getD i default).isDirectory) = true
                · simp only [h4, if_true]
                  by_cases hi : i < st.entries.length
                  · refine ⟨_, List.append_assoc _ _ _,
                      Or.inr (Or.inl ⟨i, st.entries.getD i default, path, hi, rfl, ?_⟩)⟩
                    split
                    · rename_i hcontra
                      exfalso
                      simp [List.getD_eq_getElem?_getD, List.getElem?_set_self', hi]
                        at hcontra
                    · rfl
                  · have hlen : st.entries.length ≤ i := by omega
                    rw [List.set_eq_of_length_le hlen, if_pos h4]
                    exact ⟨_, List.append_assoc _ _ _,
                      Or.inr (Or.inr ⟨path, _, idx + 1, _, rfl,
                        fun iss h => List.mem_append.mpr (Or.inr h)⟩)⟩
                · refine ⟨_, List.append_assoc _ _ _, Or.inl ?_⟩
                  rw [if_neg h4]
                  split
                  · rename_i hcontra
                    exact absurd hcontra h4
                  · rfl
              · refine ⟨_, List.append_assoc _ _ _, Or.inl ?_⟩
                rw [if_neg h3]
                split
                · rename_i hcontra
                  have heq : (st.entries.getD i default).isDirectory =
                      endsWithChar '/' (jsTrim line) := by simpa using h3
                  rw [heq] at hcontra
                  simp at hcontra
                · rfl )

lemma processLine_covered (st : PState) (idx : Nat) (line : String)
    (h : IssuesCovered st) : IssuesCovered (processLine st idx line) := by
  obtain ⟨tl, hiss, hent⟩ := processLine_shape st idx line
  intro e he iss hissmem
  rcases hent with hA | ⟨i, ex, p, hi, hex, hB⟩ | ⟨p, d, ln, eIss, hC, hsub⟩
  · rw [hA] at he
    rcases h e he iss hissmem with hin | hmsg
    · exact Or.inl (by rw [hiss]; exact List.mem_append.mpr (Or.inl hin))
    · exact Or.inr hmsg
  · rw [hB] at he
    rcases List.mem_or_eq_of_mem_set he with hold | hupg
    · rcases h e hold iss hissmem with hin | hmsg
      · exact Or.inl (by rw [hiss]; exact List.mem_append.mpr (Or.inl hin))
      · exact Or.inr hmsg
    · subst hupg
      rcases List.mem_append.mp hissmem with hold | hres
      · have hexmem : ex ∈ st.entries := by
          rw [← hex, List.getD_eq_getElem?_getD, List.getElem?_eq_getElem hi]
          exact List.getElem_mem hi
        rcases h ex hexmem iss hold with hin | hmsg
        · exact Or.inl (by rw [hiss]; exact List.mem_append.mpr (Or.inl hin))
        · exact Or.inr hmsg
      · simp only [List.mem_singleton] at hres
        subst hres
        exact Or.inr rfl
  · rw [hC] at he
    rcases List.mem_append.mp he with hold | hnew
    · rcases h e hold iss hissmem with hin | hmsg
      · exact Or.inl (by rw [hiss]; exact List.mem_append.mpr (Or.inl hin))
      · exact Or.inr hmsg
    · simp only [List.mem_singleton] at hnew
      subst hnew
      exact Or.inl (by rw [hiss]; exact List.mem_append.mpr (Or.inr (hsub iss hissmem)))

lemma processLines_covered (pairs : List (Nat × String)) (st : PState)
    (h : IssuesCovered st) :
    IssuesCovered (pairs.foldl (fun s p => processLine s p.1 p.2) st) := by
  induction pairs generalizing st with
  | nil => exact h
  | cons p ps ih => exact ih _ (processLine_covered _ _ _ h)

/-- C4, counterexample.  For the input declaring path a first as a file and
then as a directory, the surviving entry carries the retroactive
"Resolved: treating as directory" conflict issue, but that issue is not in
the top-level issues list: the source pushes it onto the entry after the
entry's issues were already spread into the flat list. -/
theorem c4_counterexample :
    ¬ (∀ e ∈ (processPaths "a\na/").entries, ∀ iss ∈ e.issues,
        iss ∈ (processPaths "a\na/").issues) := by
  decide

/-- C4, amended.  The flat top-level issues list is a superset of all
surviving entries' issues except for the retroactively-attached
"Resolved: treating as directory" conflict issue: every issue attached to a
final entry either appears in the top-level issues list or is that Resolved
issue, which appears only on the mutated entry. -/
theorem c4_issues_superset (input : String) :
    ∀ e ∈ (processPaths input).entries, ∀ iss ∈ e.issues,
      iss ∈ (processPaths input).issues ∨
        iss.message = "Resolved: treating as directory" := by
  have hcov : IssuesCovered (processLines (jsSplitNL input)) := by
    unfold processLines
    apply processLines_covered
    intro e he
    simp at he
  exact fun e he iss hm => hcov e he iss hm

/-- C4, witness: the amended theorem applied to the file-then-directory
input at the upgraded entry and its Resolved issue. -/
theorem c4_issues_superset_witness :
    (⟨IssueType.conflict, "a", "Resolved: treating as directory", some 1⟩ : PathIssue) ∈
        (processPaths "a\na/").issues ∨
      (⟨IssueType.conflict, "a", "Resolved: treating as directory",
        some 1⟩ : PathIssue).message = "Resolved: treating as directory" :=
  c4_issues_superset "a\na/"
    ⟨"a", true, 1, [⟨IssueType.conflict, "a", "Resolved: treating as directory", some 1⟩]⟩
    (by decide) _ (by decide)

/-! ### Tree-builder infrastructure -/

theorem treeRecOn {motive : TreeNode → Prop}
    (h : ∀ nm p d cs iss, (∀ c ∈ cs, motive c) → motive (TreeNode.mk nm p d cs iss)) :
    ∀ t : TreeNode, motive t
  | TreeNode.mk nm p d cs iss =>
      h nm p d cs iss (fun c hc => treeRecOn h c)
termination_by t => sizeOf t
decreasing_by
  have := List.sizeOf_lt_of_mem hc
  simp only [TreeNode.mk.sizeOf_spec]
  omega

lemma sortTree_mk (lc : String → String → Int) (nm p : String) (d : Bool)
    (cs : List TreeNode) (iss : List PathIssue) :
    sortTree lc (TreeNode.mk nm p d cs iss) =
      TreeNode.mk nm p d ((cs.mergeSort (nodeLe lc)).map (sortTree lc)) iss := by
  rw [sortTree]
  simp [List.map_attach]

lemma sortTree_name (lc : String → String → Int) (t : TreeNode) :
    (sortTree lc t).name = t.name := by
  cases t
  rw [sortTree_mk]
  rfl

lemma sortTree_path (lc : String → String → Int) (t : TreeNode) :
    (sortTree lc t).path = t.path := by
  cases t
  rw [sortTree_mk]
  rfl

lemma sortTree_isDirectory (lc : String → String → Int) (t : TreeNode) :
    (sortTree lc t).isDirectory = t.isDirectory := by
  cases t
  rw [sortTree_mk]
  rfl

lemma sortTree_issues (lc : String → String → Int) (t : TreeNode) :
    (sortTree lc t).issues = t.issues := by
  cases t
  rw [sortTree_mk]
  rfl

lemma sortTree_children (lc : String → String → Int) (t : TreeNode) :
    (sortTree lc t).children = (t.children.mergeSort (nodeLe lc)).map (sortTree lc) := by
  cases t
  rw [sortTree_mk]
  rfl

lemma nodeLe_iff (lc : String → String → Int) (a b : TreeNode) :
    nodeLe lc a b = true ↔
      (a.isDirectory = true ∧ b.isDirectory = false) ∨
      (a.isDirectory = b.isDirectory ∧ lc a.name b.name ≤ 0) := by
  rcases ha : a.isDirectory <;> rcases hb : b.isDirectory <;>
    simp [nodeLe, nodeCompare, ha, hb]

lemma nodeLe_trans (lc : String → String → Int)
    (hlc : ∀ a b c, lc a b ≤ 0 → lc b c ≤ 0 → lc a c ≤ 0) :
    ∀ a b c : TreeNode, nodeLe lc a b → nodeLe lc b c → nodeLe lc a c := by
  intro a b c hab hbc
  rw [nodeLe_iff] at hab hbc ⊢
  rcases hab with ⟨haT, hbF⟩ | ⟨hab_eq, h1⟩
  · rcases hbc with ⟨hbT, _⟩ | ⟨hbc_eq, _⟩
    · rw [hbT] at hbF
      cases hbF
    · exact Or.inl ⟨haT, hbc_eq ▸ hbF⟩
  · rcases hbc with ⟨hbT, hcF⟩ | ⟨hbc_eq, h2⟩
    · exact Or.inl ⟨hab_eq.trans hbT, hcF⟩
    · exact Or.inr ⟨hab_eq.trans hbc_eq, hlc _ _ _ h1 h2⟩

lemma nodeLe_total (lc : String → String → Int)
    (hlc : ∀ a b, lc a b ≤ 0 ∨ lc b a ≤ 0) :
    ∀ a b : TreeNode, nodeLe lc a b || nodeLe lc b a := by
  intro a b
  rw [Bool.or_eq_true, nodeLe_iff, nodeLe_iff]
  rcases ha : a.isDirectory <;> rcases hb : b.isDirectory <;> simp [ha, hb]
  · exact hlc _ _
  · exact hlc _ _

lemma nodeLe_sortTree (lc : String → String → Int) (a b : TreeNode) :
    nodeLe lc (sortTree lc a) (sortTree lc b) = nodeLe lc a b := by
  unfold nodeLe nodeCompare
  rw [sortTree_name, sortTree_name, sortTree_isDirectory, sortTree_isDirectory]

lemma sortTree_pairwise (lc : String → String → Int)
    (htrans : ∀ a b c, lc a b ≤ 0 → lc b c ≤ 0 → lc a c ≤ 0)
    (htotal : ∀ a b, lc a b ≤ 0 ∨ lc b a ≤ 0) :
    ∀ t n, Reach (sortTree lc t) n →
      n.children.Pairwise (fun a b => nodeLe lc a b = true) := by
  have key : ∀ t, ∀ n, Reach (sortTree lc t) n →
      n.children.Pairwise (fun a b => nodeLe lc a b = true) := by
    intro t
    induction t using treeRecOn with
    | _ nm p d cs iss ih =>
        intro n hr
        rw [sortTree_mk] at hr
        cases hr with
        | here =>
            show ((cs.mergeSort (nodeLe lc)).map (sortTree lc)).Pairwise _
            apply List.pairwise_map.mpr
            have hs := List.sorted_mergeSort
              (nodeLe_trans lc htrans) (nodeLe_total lc htotal) cs
            exact hs.imp (fun hab => by rw [nodeLe_sortTree]; exact hab)
        | there hc hr' =>
            rename_i c'
            have hc2 : c' ∈ (cs.mergeSort (nodeLe lc)).map (sortTree lc) := hc
            obtain ⟨c0, hc0, rfl⟩ := List.mem_map.mp hc2
            exact ih c0 (List.mem_mergeSort.mp hc0) n hr'
  exact key

/-- C7.  After buildTree, every reachable node's children list is sorted with
all directory children before all file children and, within a kind, by
localeCompare on the name (modelled by the comparator parameter lc); in
particular every directory child precedes every file child, regardless of
insertion order. -/
theorem c7_children_sorted (lc : String → String → Int) (entries : List PathEntry)
    (htrans : ∀ a b c, lc a b ≤ 0 → lc b c ≤ 0 → lc a c ≤ 0)
    (htotal : ∀ a b, lc a b ≤ 0 ∨ lc b a ≤ 0) :
    ∀ n, Reach (buildTree lc entries) n →
      n.children.Pairwise (fun a b =>
        (a.isDirectory = true ∧ b.isDirectory = false) ∨
        (a.isDirectory = b.isDirectory ∧ lc a.name b.name ≤ 0)) ∧
      ∀ i j : Fin n.children.length,
        (n.children.get i).isDirectory = false →
        (n.children.get j).isDirectory = true → (j : Nat) < (i : Nat) := by
  intro n hr
  have hpw := sortTree_pairwise lc htrans htotal (buildTreeRaw lc entries) n hr
  have hpw2 : n.children.Pairwise (fun a b =>
      (a.isDirectory = true ∧ b.isDirectory = false) ∨
      (a.isDirectory = b.isDirectory ∧ lc a.name b.name ≤ 0)) :=
    hpw.imp fun hab => (nodeLe_iff lc _ _).mp hab
  refine ⟨hpw2, ?_⟩
  intro i j hif hjd
  by_contra hcon
  push_neg at hcon
  have hij : (i : Nat) ≤ (j : Nat) := hcon
  have hne : (i : Nat) ≠ (j : Nat) := by
    intro hji
    have : n.children.get i = n.children.get j := by
      congr 1
      exact Fin.ext hji
    rw [this, hjd] at hif
    cases hif
  have hlt : i < j := by
    rw [Fin.lt_def]
    omega
  have := List.pairwise_iff_get.mp hpw2 i j hlt
  rcases this with ⟨hiT, _⟩ | ⟨heq, _⟩
  · rw [hif] at hiT
    cases hiT
  · rw [hif, hjd] at heq
    cases heq

/-- C7, witness: the theorem applied to the all-equal comparator and a
two-entry list, at the root of the resulting tree. -/
theorem c7_children_sorted_witness :
    (buildTree lcConst [⟨"b", true, 1, []⟩, ⟨"a", false, 2, []⟩]).children.Pairwise
        (fun a b =>
          (a.isDirectory = true ∧ b.isDirectory = false) ∨
          (a.isDirectory = b.isDirectory ∧ lcConst a.name b.name ≤ 0)) ∧
      ∀ i j : Fin (buildTree lcConst
          [⟨"b", true, 1, []⟩, ⟨"a", false, 2, []⟩]).children.length,
        ((buildTree lcConst [⟨"b", true, 1, []⟩, ⟨"a", false, 2, []⟩]).children.get i).isDirectory = false →
        ((buildTree lcConst [⟨"b", true, 1, []⟩, ⟨"a", false, 2, []⟩]).children.get j).isDirectory = true →
        (j : Nat) < (i : Nat) :=
  c7_children_sorted lcConst [⟨"b", true, 1, []⟩, ⟨"a", false, 2, []⟩]
    (fun a b c h1 h2 => by simpa [lcConst] using h1)
    (fun a b => Or.inl (by simp [lcConst]))
    _ (Reach.here _)

/-! ### Structural invariant of the built tree (C9) -/

lemma name_mk (nm p : String) (d : Bool) (cs : List TreeNode)
    (iss : List PathIssue) : (TreeNode.mk nm p d cs iss).name = nm := rfl

lemma path_mk (nm p : String) (d : Bool) (cs : List TreeNode)
    (iss : List PathIssue) : (TreeNode.mk nm p d cs iss).path = p := rfl

lemma isDirectory_mk (nm p : String) (d : Bool) (cs : List TreeNode)
    (iss : List PathIssue) : (TreeNode.mk nm p d cs iss).isDirectory = d := rfl

lemma children_mk (nm p : String) (d : Bool) (cs : List TreeNode)
    (iss : List PathIssue) : (TreeNode.mk nm p d cs iss).children = cs := rfl

lemma issues_mk (nm p : String) (d : Bool) (cs : List TreeNode)
    (iss : List PathIssue) : (TreeNode.mk nm p d cs iss).issues = iss := rfl

lemma insertParts_fields (e : PathEntry) (parts : List String) (node : TreeNode)
    (cp : String) :
    (insertParts e parts node cp).name = node.name ∧
    (insertParts e parts node cp).path = node.path ∧
    (insertParts e parts node cp).isDirectory = node.isDirectory ∧
    (insertParts e parts node cp).issues = node.issues := by
  cases parts with
  | nil => exact ⟨rfl, rfl, rfl, rfl⟩
  | cons p rest =>
      unfold insertParts
      cases hfc : findChild node.children p
      · simp only [hfc]
        split <;> exact ⟨rfl, rfl, rfl, rfl⟩
      · simp only [hfc]
        exact ⟨rfl, rfl, rfl, rfl⟩

lemma findChild_eq_none {cs : List TreeNode} {nm : String} :
    findChild cs nm = none ↔ ∀ c ∈ cs, c.name ≠ nm := by
  induction cs with
  | nil => simp [findChild]
  | cons c rest ih =>
      by_cases h : c.name = nm <;> simp [findChild, h, ih]

lemma findChild_eq_some {cs : List TreeNode} {nm : String} {c : TreeNode}
    (h : findChild cs nm = some c) : c ∈ cs ∧ c.name = nm := by
  induction cs with
  | nil => cases h
  | cons d rest ih =>
      simp only [findChild] at h
      by_cases hd : d.name = nm
      · rw [if_pos hd] at h
        cases h
        exact ⟨List.mem_cons_self _ _, hd⟩
      · rw [if_neg hd] at h
        obtain ⟨hm, hn⟩ := ih h
        exact ⟨List.mem_cons_of_mem _ hm, hn⟩

lemma replaceChild_map_name (cs : List TreeNode) (nm : String) (c2 : TreeNode)
    (h : c2.name = nm) :
    (replaceChild cs nm c2).map TreeNode.name = cs.map TreeNode.name := by
  unfold replaceChild
  rw [List.map_map]
  apply List.map_congr_left
  intro d _
  by_cases hd : d.name = nm
  · simp [Function.comp, hd, h]
  · simp [Function.comp, hd]

lemma mem_replaceChild {cs : List TreeNode} {nm : String} {c2 c : TreeNode}
    (h : c ∈ replaceChild cs nm c2) : c ∈ cs ∨ c = c2 := by
  unfold replaceChild at h
  obtain ⟨d, hd, hdc⟩ := List.mem_map.mp h
  by_cases hdn : d.name = nm
  · rw [if_pos hdn] at hdc
    exact Or.inr hdc.symm
  · rw [if_neg hdn] at hdc
    exact Or.inl (hdc ▸ hd)

lemma goodTree_descend {t c : TreeNode} (hg : GoodTree t) (hc : c ∈ t.children) :
    GoodTree c := fun n hr => hg n (Reach.there hc hr)

lemma goodTree_fresh (nm p : String) (d : Bool) (iss : List PathIssue) :
    GoodTree (TreeNode.mk nm p d [] iss) := by
  intro n hr
  cases hr with
  | here => exact ⟨List.nodup_nil, by intro c hc; cases hc⟩
  | there hc _ => cases hc

lemma goodTree_issues_update {c : TreeNode} (hg : GoodTree c)
    (iss' : List PathIssue) :
    GoodTree (TreeNode.mk c.name c.path c.isDirectory c.children iss') := by
  intro n hr
  cases hr with
  | here => exact hg c (Reach.here c)
  | there hc hr' => exact hg n (Reach.there hc hr')

lemma insertParts_good (e : PathEntry) (parts : List String) :
    ∀ (node : TreeNode) (cp : String),
      (∀ p ∈ parts, p ≠ "") → node.path = cp → GoodTree node →
      GoodTree (insertParts e parts node cp) := by
  induction parts with
  | nil => exact fun node cp _ _ hg => hg
  | cons p rest ih =>
      intro node cp hps hcp hg
      have hpne : p ≠ "" := hps p (List.mem_cons_self _ _)
      have hrest : ∀ q ∈ rest, q ≠ "" := fun q hq => hps q (List.mem_cons_of_mem _ hq)
      obtain ⟨hnodup, hkids⟩ := hg node (Reach.here _)
      unfold insertParts
      cases hfc : findChild node.children p with
      | none =>
          have hnotin : ∀ c ∈ node.children, c.name ≠ p := findChild_eq_none.mp hfc
          simp only [hfc]
          split
          · -- directory (or intermediate) child created, recursion inside it
            have hchild' :
                GoodTree (insertParts e rest
                  (TreeNode.mk p (joinPath cp p) true [] []) (joinPath cp p)) :=
              ih _ _ hrest rfl (goodTree_fresh _ _ _ _)
            have hf := insertParts_fields e rest
              (TreeNode.mk p (joinPath cp p) true [] []) (joinPath cp p)
            intro n hr
            cases hr with
            | here =>
                simp only [children_mk, path_mk]
                constructor
                · rw [List.map_append]
                  simp only [List.map_cons, List.map_nil, hf.1]
                  rw [List.nodup_append]
                  refine ⟨hnodup, List.nodup_singleton _, ?_⟩
                  intro x hx
                  obtain ⟨c0, hc0, rfl⟩ := List.mem_map.mp hx
                  simp only [List.mem_singleton]
                  intro hxp
                  exact hnotin c0 hc0 (by simpa using hxp.symm ▸ rfl)
                · intro c hc
                  rcases List.mem_append.mp hc with hold | hnew
                  · exact hkids c hold
                  · simp only [List.mem_singleton] at hnew
                    subst hnew
                    refine ⟨by rw [hf.1]; exact hpne, ?_⟩
                    rw [hf.1, hf.2.1]
                    show joinPath cp p = joinPath node.path p
                    rw [hcp]
            | there hc hr' =>
                simp only [children_mk] at hc
                rcases List.mem_append.mp hc with hold | hnew
                · exact hg n (Reach.there hold hr')
                · simp only [List.mem_singleton] at hnew
                  subst hnew
                  exact hchild' n hr'
          · -- file child created, no recursion
            intro n hr
            cases hr with
            | here =>
                simp only [children_mk, path_mk]
                constructor
                · rw [List.map_append]
                  simp only [List.map_cons, List.map_nil]
                  rw [List.nodup_append]
                  refine ⟨hnodup, List.nodup_singleton _, ?_⟩
                  intro x hx
                  obtain ⟨c0, hc0, rfl⟩ := List.mem_map.mp hx
                  simp only [List.mem_singleton]
                  intro hxp
                  exact hnotin c0 hc0 (by simpa using hxp.symm ▸ rfl)
                · intro c hc
                  rcases List.mem_append.mp hc with hold | hnew
                  · exact hkids c hold
                  · simp only [List.mem_singleton] at hnew
                    subst hnew
                    refine ⟨hpne, ?_⟩
                    show joinPath cp p = joinPath node.path p
                    rw [hcp]
            | there hc hr' =>
                simp only [children_mk] at hc
                rcases List.mem_append.mp hc with hold | hnew
                · exact hg n (Reach.there hold hr')
                · simp only [List.mem_singleton] at hnew
                  subst hnew
                  exact goodTree_fresh _ _ _ _ n hr'
      | some child =>
          obtain ⟨hmem, hcname⟩ := findChild_eq_some hfc
          have hcgood : GoodTree child := goodTree_descend hg hmem
          have hcpath : child.path = joinPath cp p := by
            have := (hkids child hmem).2
            rw [hcname, hcp] at this
            exact this
          simp only [hfc]
          by_cases hlast : (rest.isEmpty && !e.isDirectory) = true
          · rw [if_pos hlast]
            have hc1good : GoodTree (TreeNode.mk child.name child.path
                child.isDirectory child.children (child.issues ++ e.issues)) :=
              goodTree_issues_update hcgood _
            have hchild2 : GoodTree (insertParts e rest
                (TreeNode.mk child.name child.path child.isDirectory child.children
                  (child.issues ++ e.issues)) (joinPath cp p)) :=
              ih _ _ hrest (by show child.path = _; rw [hcpath]) hc1good
            have hf := insertParts_fields e rest
              (TreeNode.mk child.name child.path child.isDirectory child.children
                (child.issues ++ e.issues)) (joinPath cp p)
            intro n hr
            cases hr with
            | here =>
                simp only [children_mk, path_mk]
                constructor
                · rw [replaceChild_map_name _ _ _ (by rw [hf.1]; exact hcname)]
                  exact hnodup
                · intro c hc
                  rcases mem_replaceChild hc with hold | hnew
                  · exact hkids c hold
                  · subst hnew
                    refine ⟨by rw [hf.1]; show child.name ≠ ""; rw [hcname]; exact hpne, ?_⟩
                    rw [hf.1, hf.2.1]
                    show child.path = joinPath node.path child.name
                    rw [hcname, hcpath, hcp]
            | there hc hr' =>
                simp only [children_mk] at hc
                rcases mem_replaceChild hc with hold | hnew
                · exact hg n (Reach.there hold hr')
                · subst hnew
                  exact hchild2 n hr'
          · rw [if_neg hlast]
            have hchild2 : GoodTree (insertParts e rest child (joinPath cp p)) :=
              ih _ _ hrest hcpath hcgood
            have hf := insertParts_fields e rest child (joinPath cp p)
            intro n hr
            cases hr with
            | here =>
                simp only [children_mk, path_mk]
                constructor
                · rw [replaceChild_map_name _ _ _ (by rw [hf.1]; exact hcname)]
                  exact hnodup
                · intro c hc
                  rcases mem_replaceChild hc with hold | hnew
                  · exact hkids c hold
                  · subst hnew
                    refine ⟨by rw [hf.1]; rw [hcname]; exact hpne, ?_⟩
                    rw [hf.1, hf.2.1]
                    show child.path = joinPath node.path child.name
                    rw [hcname, hcpath, hcp]
            | there hc hr' =>
                simp only [children_mk] at hc
                rcases mem_replaceChild hc with hold | hnew
                · exact hg n (Reach.there hold hr')
                · subst hnew
                  exact hchild2 n hr'

lemma foldl_insert_good (es : List PathEntry) :
    ∀ t : TreeNode, t.path = "" → GoodTree t →
      GoodTree (es.foldl insertEntry t) ∧ (es.foldl insertEntry t).path = "" := by
  induction es with
  | nil => exact fun t h1 h2 => ⟨h2, h1⟩
  | cons e es ih =>
      intro t h1 h2
      have hone : GoodTree (insertEntry t e) :=
        insertParts_good e (entryParts e) t ""
          (fun p hp => by simpa using List.of_mem_filter hp) h1 h2
      have hpath : (insertEntry t e).path = "" := by
        have := (insertParts_fields e (entryParts e) t "").2.1
        rw [show insertEntry t e = insertParts e (entryParts e) t "" from rfl, this, h1]
      exact ih _ hpath hone

lemma sortTree_good (lc : String → String → Int) :
    ∀ t : TreeNode, GoodTree t → GoodTree (sortTree lc t) := by
  intro t
  induction t using treeRecOn with
  | _ nm p d cs iss ih =>
      intro hg
      intro n hr
      rw [sortTree_mk] at hr
      cases hr with
      | here =>
          obtain ⟨hnodup, hkids⟩ := hg _ (Reach.here _)
          simp only [children_mk, path_mk] at hnodup hkids ⊢
          constructor
          · rw [List.map_map]
            have hmaps : List.map (TreeNode.name ∘ sortTree lc)
                (cs.mergeSort (nodeLe lc)) =
                List.map TreeNode.name (cs.mergeSort (nodeLe lc)) :=
              List.map_congr_left fun c _ => sortTree_name lc c
            rw [hmaps]
            exact (((List.mergeSort_perm cs (nodeLe lc)).map TreeNode.name).symm).nodup
              hnodup
          · intro c hc
            obtain ⟨c0, hc0, rfl⟩ := List.mem_map.mp hc
            have hc0cs : c0 ∈ cs := List.mem_mergeSort.mp hc0
            obtain ⟨hne, hpath⟩ := hkids c0 hc0cs
            refine ⟨by rw [sortTree_name]; exact hne, ?_⟩
            rw [sortTree_name, sortTree_path, hpath]
      | there hc hr' =>
          simp only [children_mk] at hc
          obtain ⟨c0, hc0, rfl⟩ := List.mem_map.mp hc
          have hc0cs : c0 ∈ cs := List.mem_mergeSort.mp hc0
          exact ih c0 hc0cs (goodTree_descend hg hc0cs) n hr'

/-- C9.  For every entries list, the tree returned by buildTree has the
synthetic root at the empty path, and at every reachable node the children
are unique by name, and every non-root node (a child of some node) has a
nonempty name, a nonempty path, and a path equal to its parent's path joined
with its own name using a slash (or just its name when the parent is the
root, which joinPath captures). -/
theorem c9_structural_invariant (lc : String → String → Int)
    (entries : List PathEntry) :
    (buildTree lc entries).path = "" ∧
    ∀ n, Reach (buildTree lc entries) n →
      (n.children.map TreeNode.name).Nodup ∧
      ∀ c ∈ n.children,
        c.name ≠ "" ∧ c.path = joinPath n.path c.name ∧ c.path ≠ "" := by
  have hraw := foldl_insert_good (sortEntries lc entries) rootNode rfl
    (goodTree_fresh "" "" true [])
  have hgood : GoodTree (buildTree lc entries) := sortTree_good lc _ hraw.1
  have hpath : (buildTree lc entries).path = "" := by
    show (sortTree lc (buildTreeRaw lc entries)).path = ""
    rw [sortTree_path]
    exact hraw.2
  refine ⟨hpath, ?_⟩
  intro n hr
  obtain ⟨h1, h2⟩ := hgood n hr
  refine ⟨h1, fun c hc => ?_⟩
  obtain ⟨hn1, hn2⟩ := h2 c hc
  refine ⟨hn1, hn2, ?_⟩
  rw [hn2]
  unfold joinPath
  by_cases hb : n.path = ""
  · simp only [hb, if_true]
    exact hn1
  · simp only [hb, if_false]
    intro hcontra
    have hlen := congrArg String.length hcontra
    rw [String.length_append, String.length_append] at hlen
    have : ("/" : String).length = 1 := rfl
    rw [this] at hlen
    simp at hlen

/-- C9, witness: the invariant applied at the root of the tree of the empty
entries list. -/
theorem c9_structural_invariant_witness :
    ((buildTree lcConst []).children.map TreeNode.name).Nodup ∧
    ∀ c ∈ (buildTree lcConst []).children,
      c.name ≠ "" ∧ c.path = joinPath (buildTree lcConst []).path c.name ∧
        c.path ≠ "" :=
  (c9_structural_invariant lcConst []).2 _ (Reach.here _)

/-! ### Issue inheritance in the tree (C8) -/

lemma findChild_append (cs : List TreeNode) (c : TreeNode) (q : String) :
    findChild (cs ++ [c]) q =
      match findChild cs q with
      | some x => some x
      | none => if c.name = q then some c else none := by
  induction cs with
  | nil => rfl
  | cons d rest ih =>
      by_cases hd : d.name = q
      · simp only [List.cons_append, findChild, if_pos hd]
      · simp only [List.cons_append, findChild, if_neg hd]
        exact ih

lemma findChild_replaceChild_eq {cs : List TreeNode} {nm : String} {c c2 : TreeNode}
    (hf : findChild cs nm = some c) (h2 : c2.name = nm) :
    findChild (replaceChild cs nm c2) nm = some c2 := by
  induction cs with
  | nil => cases hf
  | cons d rest ih =>
      by_cases hd : d.name = nm
      · have h1 : replaceChild (d :: rest) nm c2 = c2 :: replaceChild rest nm c2 := by
          simp [replaceChild, hd]
        rw [h1]
        simp [findChild, h2]
      · have h1 : replaceChild (d :: rest) nm c2 = d :: replaceChild rest nm c2 := by
          simp [replaceChild, hd]
        simp only [findChild, if_neg hd] at hf
        rw [h1]
        simp only [findChild]
        rw [if_neg hd]
        exact ih hf

lemma findChild_replaceChild_ne {cs : List TreeNode} {nm q : String} {c2 : TreeNode}
    (h2 : c2.name = nm) (hq : q ≠ nm) :
    findChild (replaceChild cs nm c2) q = findChild cs q := by
  induction cs with
  | nil => rfl
  | cons d rest ih =>
      by_cases hd : d.name = nm
      · have h1 : replaceChild (d :: rest) nm c2 = c2 :: replaceChild rest nm c2 := by
          simp [replaceChild, hd]
        rw [h1]
        simp only [findChild]
        rw [if_neg (by rw [h2]; exact fun hh => hq hh.symm),
            if_neg (by rw [hd]; exact fun hh => hq hh.symm)]
        exact ih
      · have h1 : replaceChild (d :: rest) nm c2 = d :: replaceChild rest nm c2 := by
          simp [replaceChild, hd]
        rw [h1]
        simp only [findChild]
        by_cases hdq : d.name = q
        · rw [if_pos hdq, if_pos hdq]
        · rw [if_neg hdq, if_neg hdq]
          exact ih

lemma issuesAt_nil (t : TreeNode) : issuesAt t [] = t.issues := rfl

lemma findNodeAt_cons (t : TreeNode) (x : String) (xs : List String) :
    findNodeAt t (x :: xs) =
      match findChild t.children x with
      | none => none
      | some c => findNodeAt c xs := rfl

lemma issuesAt_cons (t : TreeNode) (x : String) (xs : List String) :
    issuesAt t (x :: xs) =
      match findChild t.children x with
      | none => []
      | some c => issuesAt c xs := by
  unfold issuesAt
  rw [findNodeAt_cons]
  cases findChild t.children x with
  | none => rfl
  | some c => rfl

lemma issuesAt_leaf (nm p : String) (d : Bool) (iss : List PathIssue)
    (q : List String) (hq : q ≠ []) :
    issuesAt (TreeNode.mk nm p d [] iss) q = [] := by
  cases q with
  | nil => cases hq rfl
  | cons x xs =>
      rw [issuesAt_cons]
      simp only [children_mk]
      rfl

lemma issuesAt_cons_none {t : TreeNode} {x : String} (xs : List String)
    (h : findChild t.children x = none) : issuesAt t (x :: xs) = [] := by
  rw [issuesAt_cons, h]

lemma issuesAt_cons_some {t c : TreeNode} {x : String} (xs : List String)
    (h : findChild t.children x = some c) :
    issuesAt t (x :: xs) = issuesAt c xs := by
  rw [issuesAt_cons, h]

lemma issuesAt_insertParts (e : PathEntry) (parts : List String) :
    ∀ (node : TreeNode) (cp : String) (q : List String),
      parts ≠ [] →
      issuesAt (insertParts e parts node cp) q =
        issuesAt node q ++
          (if parts = q ∧ e.isDirectory = false then e.issues else []) := by
  induction parts with
  | nil => intro node cp q h; cases h rfl
  | cons p rest ih =>
      intro node cp q _
      unfold insertParts
      cases hfc : findChild node.children p with
      | none =>
          simp only [hfc]
          split
          · -- directory (or intermediate) node created
            rename_i hcond
            cases q with
            | nil =>
                rw [issuesAt_nil, issuesAt_nil]
                simp only [issues_mk]
                simp
            | cons qh qt =>
                by_cases hq : qh = p
                · subst hq
                  have hname := (insertParts_fields e rest
                    (TreeNode.mk qh (joinPath cp qh) true [] []) (joinPath cp qh)).1
                  rw [name_mk] at hname
                  have hfca : findChild (node.children ++
                      [insertParts e rest (TreeNode.mk qh (joinPath cp qh) true [] [])
                        (joinPath cp qh)]) qh =
                      some (insertParts e rest (TreeNode.mk qh (joinPath cp qh) true [] [])
                        (joinPath cp qh)) := by
                    rw [findChild_append, hfc]
                    exact if_pos hname
                  rw [issuesAt_cons_some qt (by rw [children_mk]; exact hfca),
                      issuesAt_cons_none qt hfc]
                  cases rest with
                  | nil =>
                      have hdir : e.isDirectory = true := by simpa using hcond
                      show issuesAt (TreeNode.mk qh (joinPath cp qh) true [] []) qt = _
                      cases qt with
                      | nil =>
                          rw [issuesAt_nil]
                          simp [issues_mk, hdir]
                      | cons y ys =>
                          rw [issuesAt_leaf _ _ _ _ _ (by simp)]
                          simp [hdir]
                  | cons r rs =>
                      rw [ih _ _ qt (by simp)]
                      have hfresh :
                          issuesAt (TreeNode.mk qh (joinPath cp qh) true [] []) qt = [] := by
                        cases qt with
                        | nil => rw [issuesAt_nil]; rfl
                        | cons y ys => exact issuesAt_leaf _ _ _ _ _ (by simp)
                      rw [hfresh]
                      simp [List.cons.injEq]
                · have hqp : ¬(p = qh) := fun hh => hq hh.symm
                  have hname := (insertParts_fields e rest
                    (TreeNode.mk p (joinPath cp p) true [] []) (joinPath cp p)).1
                  rw [name_mk] at hname
                  have hmain : findChild (node.children ++ [insertParts e rest
                      (TreeNode.mk p (joinPath cp p) true [] []) (joinPath cp p)]) qh =
                      findChild node.children qh := by
                    rw [findChild_append]
                    cases hfq : findChild node.children qh with
                    | none => simp [hname, hqp]
                    | some c => rfl
                  cases hfq : findChild node.children qh with
                  | none =>
                      rw [issuesAt_cons_none qt (by rw [children_mk, hmain]; exact hfq),
                          issuesAt_cons_none qt hfq]
                      simp [List.cons.injEq, hqp]
                  | some c =>
                      rw [issuesAt_cons_some qt (by rw [children_mk, hmain]; exact hfq),
                          issuesAt_cons_some qt hfq]
                      simp [List.cons.injEq, hqp]
          · -- file node created
            rename_i hcond
            have hrest : rest = [] := by
              cases rest with
              | nil => rfl
              | cons r rs => simp at hcond
            have hfile : e.isDirectory = false := by
              subst hrest
              simpa using hcond
            subst hrest
            cases q with
            | nil =>
                rw [issuesAt_nil, issuesAt_nil]
                simp only [issues_mk]
                simp
            | cons qh qt =>
                by_cases hq : qh = p
                · subst hq
                  have hfca : findChild (node.children ++
                      [TreeNode.mk qh (joinPath cp qh) false [] e.issues]) qh =
                      some (TreeNode.mk qh (joinPath cp qh) false [] e.issues) := by
                    rw [findChild_append, hfc]
                    exact if_pos (name_mk _ _ _ _ _)
                  rw [issuesAt_cons_some qt (by rw [children_mk]; exact hfca),
                      issuesAt_cons_none qt hfc]
                  cases qt with
                  | nil =>
                      rw [issuesAt_nil]
                      simp [issues_mk, hfile]
                  | cons y ys =>
                      rw [issuesAt_leaf _ _ _ _ _ (by simp)]
                      simp
                · have hqp : ¬(p = qh) := fun hh => hq hh.symm
                  have hmain : findChild (node.children ++
                      [TreeNode.mk p (joinPath cp p) false [] e.issues]) qh =
                      findChild node.children qh := by
                    rw [findChild_append]
                    cases hfq : findChild node.children qh with
                    | none => simp [name_mk, hqp]
                    | some c => rfl
                  cases hfq : findChild node.children qh with
                  | none =>
                      rw [issuesAt_cons_none qt (by rw [children_mk, hmain]; exact hfq),
                          issuesAt_cons_none qt hfq]
                      simp [List.cons.injEq, hqp]
                  | some c =>
                      rw [issuesAt_cons_some qt (by rw [children_mk, hmain]; exact hfq),
                          issuesAt_cons_some qt hfq]
                      simp [List.cons.injEq, hqp]
      | some child =>
          simp only [hfc]
          obtain ⟨hmem, hcname⟩ := findChild_eq_some hfc
          cases q with
          | nil =>
              rw [issuesAt_nil, issuesAt_nil]
              simp only [issues_mk]
              simp
          | cons qh qt =>
              by_cases hq : qh = p
              · subst hq
                cases rest with
                | nil =>
                    by_cases hfile : e.isDirectory = false
                    · rw [if_pos (show
                        (List.isEmpty ([] : List String) && !e.isDirectory) = true by
                          simp [hfile])]
                      have hname2 : (insertParts e ([] : List String)
                          (TreeNode.mk child.name child.path child.isDirectory
                            child.children (child.issues ++ e.issues))
                          (joinPath cp qh)).name = qh := by
                        rw [(insertParts_fields _ _ _ _).1, name_mk]
                        exact hcname
                      rw [issuesAt_cons_some qt (by
                            rw [children_mk]
                            exact findChild_replaceChild_eq hfc hname2),
                          issuesAt_cons_some qt hfc]
                      show issuesAt (TreeNode.mk child.name child.path child.isDirectory
                          child.children (child.issues ++ e.issues)) qt = _
                      cases qt with
                      | nil =>
                          rw [issuesAt_nil, issuesAt_nil]
                          simp [issues_mk, hfile]
                      | cons y ys =>
                          rw [issuesAt_cons, issuesAt_cons]
                          simp only [children_mk]
                          simp
                    · rw [if_neg (show
                        ¬((List.isEmpty ([] : List String) && !e.isDirectory) = true) by
                          simp only [List.isEmpty_nil, Bool.true_and, Bool.not_eq_true']
                          intro hh
                          exact hfile (by simpa using hh))]
                      have hname2 : (insertParts e ([] : List String) child
                          (joinPath cp qh)).name = qh := by
                        rw [(insertParts_fields _ _ _ _).1]
                        exact hcname
                      rw [issuesAt_cons_some qt (by
                            rw [children_mk]
                            exact findChild_replaceChild_eq hfc hname2),
                          issuesAt_cons_some qt hfc]
                      show issuesAt child qt = _
                      simp [hfile]
                | cons r rs =>
                    rw [if_neg (show
                      ¬((List.isEmpty (r :: rs) && !e.isDirectory) = true) by simp)]
                    have hname2 : (insertParts e (r :: rs) child
                        (joinPath cp qh)).name = qh := by
                      rw [(insertParts_fields _ _ _ _).1]
                      exact hcname
                    rw [issuesAt_cons_some qt (by
                          rw [children_mk]
                          exact findChild_replaceChild_eq hfc hname2),
                        issuesAt_cons_some qt hfc]
                    rw [ih _ _ qt (by simp)]
                    simp [List.cons.injEq]
              · have hqp : ¬(p = qh) := fun hh => hq hh.symm
                have hname2 : (insertParts e rest
                    (if (rest.isEmpty && !e.isDirectory) = true then
                      TreeNode.mk child.name child.path child.isDirectory
                        child.children (child.issues ++ e.issues)
                    else child) (joinPath cp p)).name = p := by
                  rw [(insertParts_fields _ _ _ _).1]
                  split
                  · rw [name_mk]
                    exact hcname
                  · exact hcname
                have hrc : findChild (replaceChild node.children p _) qh =
                    findChild node.children qh := findChild_replaceChild_ne hname2 hq
                cases hfq : findChild node.children qh with
                | none =>
                    rw [issuesAt_cons_none qt (by rw [children_mk, hrc]; exact hfq),
                        issuesAt_cons_none qt hfq]
                    simp [List.cons.injEq, hqp]
                | some c =>
                    rw [issuesAt_cons_some qt (by rw [children_mk, hrc]; exact hfq),
                        issuesAt_cons_some qt hfq]
                    simp [List.cons.injEq, hqp]

lemma issuesAt_foldl (es : List PathEntry) :
    ∀ (t : TreeNode) (q : List String), q ≠ [] →
      issuesAt (es.foldl insertEntry t) q =
        issuesAt t q ++
          ((es.filter fun e => !e.isDirectory && entryParts e == q).flatMap
            PathEntry.issues) := by
  induction es with
  | nil => intro t q _; simp
  | cons e es ih =>
      intro t q hq
      rw [List.foldl_cons, ih _ _ hq]
      by_cases hp : entryParts e = []
      · have hid : insertEntry t e = t := by
          show insertParts e (entryParts e) t "" = t
          rw [hp]
          rfl
        rw [hid]
        have hpred : (!e.isDirectory && (entryParts e == q)) = false := by
          rw [hp]
          cases q with
          | nil => cases hq rfl
          | cons a as => simp
        rw [List.filter_cons, hpred]
        simp
      · rw [show insertEntry t e = insertParts e (entryParts e) t "" from rfl,
            issuesAt_insertParts e (entryParts e) t "" q hp,
            List.filter_cons]
        by_cases hmatch : entryParts e = q ∧ e.isDirectory = false
        · rw [if_pos hmatch]
          have hpred : (!e.isDirectory && (entryParts e == q)) = true := by
            simp [hmatch.1, hmatch.2]
          rw [hpred]
          simp only [if_true, List.flatMap_cons]
          rw [List.append_assoc]
        · rw [if_neg hmatch]
          have hpred : (!e.isDirectory && (entryParts e == q)) = false := by
            rcases hb : (!e.isDirectory && (entryParts e == q)) with _ | _
            · rfl
            · exfalso
              simp only [Bool.and_eq_true, Bool.not_eq_true', beq_iff_eq] at hb
              exact hmatch ⟨hb.2, hb.1⟩
          rw [hpred]
          simp

lemma findChild_of_nodup {cs : List TreeNode} {x : String} {c : TreeNode}
    (hnd : (cs.map TreeNode.name).Nodup) (hm : c ∈ cs) (hn : c.name = x) :
    findChild cs x = some c := by
  induction cs with
  | nil => cases hm
  | cons d rest ih =>
      rw [List.map_cons, List.nodup_cons] at hnd
      rcases List.mem_cons.mp hm with rfl | hm'
      · simp only [findChild]
        rw [if_pos hn]
      · by_cases hd : d.name = x
        · exfalso
          apply hnd.1
          rw [hd, ← hn]
          exact List.mem_map.mpr ⟨c, hm', rfl⟩
        · simp only [findChild]
          rw [if_neg hd]
          exact ih hnd.2 hm'

lemma issuesAt_sortTree (lc : String → String → Int) :
    ∀ t : TreeNode, GoodTree t → ∀ q, issuesAt (sortTree lc t) q = issuesAt t q := by
  intro t
  induction t using treeRecOn with
  | _ nm p d cs iss ih =>
      intro hg q
      cases q with
      | nil => rw [issuesAt_nil, issuesAt_nil, sortTree_issues]
      | cons x xs =>
          obtain ⟨hnodup, _⟩ := hg _ (Reach.here _)
          simp only [children_mk] at hnodup
          rw [sortTree_mk]
          cases hfq : findChild cs x with
          | none =>
              have hnone2 :
                  findChild ((cs.mergeSort (nodeLe lc)).map (sortTree lc)) x = none := by
                rw [findChild_eq_none]
                intro c hc
                obtain ⟨c0, hc0, rfl⟩ := List.mem_map.mp hc
                rw [sortTree_name]
                exact findChild_eq_none.mp hfq c0 (List.mem_mergeSort.mp hc0)
              rw [issuesAt_cons_none xs (by rw [children_mk]; exact hnone2),
                  issuesAt_cons_none xs (by rw [children_mk]; exact hfq)]
          | some c =>
              obtain ⟨hcm, hcn⟩ := findChild_eq_some hfq
              have hnd2 : (((cs.mergeSort (nodeLe lc)).map (sortTree lc)).map
                  TreeNode.name).Nodup := by
                rw [List.map_map]
                have hmaps : List.map (TreeNode.name ∘ sortTree lc)
                    (cs.mergeSort (nodeLe lc)) =
                    List.map TreeNode.name (cs.mergeSort (nodeLe lc)) :=
                  List.map_congr_left fun c _ => sortTree_name lc c
                rw [hmaps]
                exact (((List.mergeSort_perm cs (nodeLe lc)).map
                  TreeNode.name).symm).nodup hnodup
              have hsome2 : findChild ((cs.mergeSort (nodeLe lc)).map (sortTree lc)) x =
                  some (sortTree lc c) :=
                findChild_of_nodup hnd2
                  (List.mem_map.mpr ⟨c, List.mem_mergeSort.mpr hcm, rfl⟩)
                  (by rw [sortTree_name]; exact hcn)
              rw [issuesAt_cons_some xs (by rw [children_mk]; exact hsome2),
                  issuesAt_cons_some xs (by rw [children_mk]; exact hfq)]
              exact ih c hcm (goodTree_descend hg hcm) xs

/-- C8, counterexample.  A terminal directory entry carrying an issue yields a
node with an empty issues list: buildTree creates directory nodes with no
issues, so a directory entry's issues never attach to its node, contradicting
the claim that the terminal file or directory entry's issues attach. -/
theorem c8_counterexample :
    ((buildTree lcConst [⟨"a", true, 1,
        [⟨IssueType.sanitized, "a", "m", some 1⟩]⟩]).children.map TreeNode.issues) =
      [[]] ∧
    (⟨"a", true, 1,
      [⟨IssueType.sanitized, "a", "m", some 1⟩]⟩ : PathEntry).issues ≠ [] := by
  constructor
  · have h1 : buildTreeRaw lcConst
        [⟨"a", true, 1, [⟨IssueType.sanitized, "a", "m", some 1⟩]⟩] =
        TreeNode.mk "" "" true [TreeNode.mk "a" "a" true [] []] [] := by
      show (sortEntries lcConst _).foldl insertEntry rootNode = _
      unfold sortEntries
      rw [List.mergeSort_singleton]
      rfl
    show ((sortTree lcConst (buildTreeRaw lcConst _)).children.map TreeNode.issues) = _
    rw [h1, sortTree_mk, children_mk, List.mergeSort_singleton, List.map_cons,
      List.map_nil, sortTree_mk, List.mergeSort_nil, List.map_nil]
    rfl
  · decide

/-- C8, amended.  In the tree built by buildTree, the issues found at any
nonempty segment walk are exactly the concatenated issues of the FILE entries
whose (nonempty-part) segment list equals that walk, in build-sort order:
file entries' issues attach to the node at their path (whether that node is a
file node or a previously-created directory node), directory entries
contribute no issues, and implicitly created intermediate directory nodes
carry none of their own. -/
theorem c8_node_issues_from_file_entries (lc : String → String → Int)
    (entries : List PathEntry) (q : List String) (hq : q ≠ []) :
    issuesAt (buildTree lc entries) q =
      ((sortEntries lc entries).filter
        (fun e => !e.isDirectory && entryParts e == q)).flatMap PathEntry.issues := by
  have hraw := foldl_insert_good (sortEntries lc entries) rootNode rfl
    (goodTree_fresh "" "" true [])
  show issuesAt (sortTree lc ((sortEntries lc entries).foldl insertEntry rootNode)) q = _
  rw [issuesAt_sortTree lc _ hraw.1 q]
  rw [issuesAt_foldl _ _ _ hq]
  have hroot : issuesAt rootNode q = [] := by
    cases q with
    | nil => cases hq rfl
    | cons x xs => exact issuesAt_leaf _ _ _ _ _ (by simp)
  rw [hroot]
  simp

/-- C8, witness: the amended theorem applied to a one-file-entry list at the
walk of its path. -/
theorem c8_node_issues_witness :
    issuesAt (buildTree lcConst [⟨"a", false, 1,
        [⟨IssueType.sanitized, "a", "m", some 1⟩]⟩]) ["a"] =
      ((sortEntries lcConst [⟨"a", false, 1,
          [⟨IssueType.sanitized, "a", "m", some 1⟩]⟩]).filter
        (fun e => !e.isDirectory && entryParts e == ["a"])).flatMap
        PathEntry.issues :=
  c8_node_issues_from_file_entries lcConst
    [⟨"a", false, 1, [⟨IssueType.sanitized, "a", "m", some 1⟩]⟩] ["a"] (by decide)

end FolderCreator
